import Mathlib

/-!
# Route finder: embedding of `main.cpp`

The program searches, for a start platform, the fastest route that visits all
13 platforms, by best-first search over partial routes.

Modelling choices.

* `uint8_t` identifiers are natural numbers; the 8-bit counters of
  `tooManySameLevels` are incremented modulo 256.
* `float` times are values of a type `T` with `+`, `0` and `<`; nothing else
  of floating point is used by the search. Results that need ordering facts
  ask for a linear order and say which facts of addition they use.
* `std::array<_, 13>` is a list of 13 cells; `std::vector` is a list.
* `std::priority_queue` is library code: the search is written over any
  queue that meets the contract `PriorityQueue` (the contents are a multiset,
  `pop` hands out an element that the comparator puts before no other element).
  `listQueue` is one executable queue meeting it.
* The `while` loop takes a step budget; `searchFuel` is a budget that is
  shown to be never exhausted.
* Array accesses outside the bounds are undefined in C++. The index `id - 1`
  is an integer (`cellIndex`); outside the array the model reads nothing and
  writes nothing. Every theorem about the search assumes identifiers in
  `1..13`, where all accesses are inside the arrays.
* `parseTimesFile` is given the lines of `times.txt` after pattern matching:
  a matched line is the two numbers its identifier captures write and the time
  `std::stof` returned, an unmatched line is `none`. `std::stoi` is modelled:
  it throws on a number above `INT_MAX`. A line on which `std::stoi` throws, or
  whose source indexes outside the array, makes the result `none`.
* `searchTrace` lists the routes the loop handles, to state index safety.
-/

namespace RouteFinder

/-! ## Constants and data -/

/-- The constant `NUM_LEVELS`. -/
def NUM_LEVELS : Nat := 13

/-- The constant `MAX_PLATFORMS_IN_ROUTE`. -/
def MAX_PLATFORMS_IN_ROUTE : Nat := 15

/-- The struct `RingLevel`: an outbound edge. -/
structure RingLevel (T : Type) where
  destinationLevel : Nat
  levelTime : T
deriving DecidableEq

/-- The struct `Platform`: a node and its outbound edges. -/
structure Platform (T : Type) where
  platformLevel : Nat
  connectedLevels : List (RingLevel T)
deriving DecidableEq

/-- The struct `Route`: visited identifiers and accumulated time. -/
structure Route (T : Type) where
  routePath : List Nat
  routeTime : T
deriving DecidableEq

/-- The type `PlatformArr`, `std::array<Platform, NUM_LEVELS>`, as a list of cells. -/
abbrev PlatformArr (T : Type) := List (Platform T)

section Model

variable {T : Type}

/-- The constructor `Route::Route()`: empty path, time 0. -/
def Route.new [Zero T] : Route T :=
  { routePath := [], routeTime := 0 }

/-- The constructor `Route::Route(const uint8_t &start)`. -/
def Route.ofStart [Zero T] (start : Nat) : Route T :=
  { routePath := [] ++ [start], routeTime := 0 }

/-- The copy loop of `Route::Route(const Route &, const RingLevel &)`:
pushes the elements of the old path one by one. -/
def copyPath (routePath : List Nat) : List Nat :=
  routePath.foldl (fun acc x => acc ++ [x]) []

/-- The constructor `Route::Route(const Route &route, const RingLevel &next)`. -/
def Route.extend [Add T] (route : Route T) (next : RingLevel T) : Route T :=
  { routePath := copyPath route.routePath ++ [next.destinationLevel]
    routeTime := route.routeTime + next.levelTime }

/-! ## Array cells -/

/-- The index expression `id - 1` of the source: the `uint8_t` identifier is
promoted to `int` before the subtraction, so identifier 0 gives index -1. -/
def cellIndex (id : Nat) : Int :=
  (id : Int) - 1

/-- The read `arr[i]`; `none` where the index lies outside the array. -/
def readCell {α : Type} (arr : List α) (i : Int) : Option α :=
  if 0 ≤ i then arr[i.toNat]? else none

/-- The write `arr[i] = v`; nothing is written where the index lies outside the array. -/
def writeCell {α : Type} (arr : List α) (i : Int) (v : α) : List α :=
  if 0 ≤ i then arr.set i.toNat v else arr

/-! ## The three tests on a route -/

/-- The first loop of `allLevelVisitedInRoute`: `platformCheck[platform - 1] = true`. -/
def markVisited (platformCheck : List Bool) (platform : Nat) : List Bool :=
  writeCell platformCheck (cellIndex platform) true

/-- The function `allLevelVisitedInRoute`. -/
def allLevelVisitedInRoute (curRoute : Route T) : Bool :=
  let platformCheck := curRoute.routePath.foldl markVisited (List.replicate NUM_LEVELS false)
  platformCheck.all (fun visited => visited)

/-- The function `atMaxPathLength`. -/
def atMaxPathLength (curRoute : Route T) : Bool :=
  decide (curRoute.routePath.length ≥ MAX_PLATFORMS_IN_ROUTE)

/-- The first loop of `tooManySameLevels`: `platformCheck[platform - 1]++` on an
8-bit unsigned cell. -/
def countVisit (platformCheck : List Nat) (platform : Nat) : List Nat :=
  match readCell platformCheck (cellIndex platform) with
  | some visited => writeCell platformCheck (cellIndex platform) ((visited + 1) % 256)
  | none => platformCheck

/-- The second loop of `tooManySameLevels`, with the running `doubleVisits`. -/
def scanVisits : List Nat → Nat → Bool
  | [], doubleVisits => decide (doubleVisits > 2)
  | visited :: rest, doubleVisits =>
    if visited ≥ 3 then true
    else if visited = 2 then scanVisits rest (doubleVisits + 1)
    else scanVisits rest doubleVisits

/-- The function `tooManySameLevels`. -/
def tooManySameLevels (curRoute : Route T) : Bool :=
  let platformCheck := curRoute.routePath.foldl countVisit (List.replicate NUM_LEVELS 0)
  scanVisits platformCheck 0

/-! ## The priority queue -/

/-- The comparator `routeComp` of `findFastestRoute`. -/
def routeComp [LT T] [DecidableRel (fun a b : T => a < b)] (left right : Route T) : Bool :=
  decide (left.routeTime > right.routeTime)

/-- Contract of `std::priority_queue<α, std::vector<α>, comp>`: the contents
form a multiset, `pop` (the pair `top(); pop()`) removes one element, and the
comparator places that element before none of the remaining ones. Which of
several such elements is handed out is left to the queue. -/
structure PriorityQueue (α : Type) (comp : α → α → Bool) where
  State : Type
  empty : State
  push : State → α → State
  pop : State → Option (α × State)
  contents : State → List α
  contents_empty : contents empty = []
  contents_push : ∀ q a, (contents (push q a)).Perm (a :: contents q)
  pop_none : ∀ q, pop q = none → contents q = []
  pop_some : ∀ q a q', pop q = some (a, q') → (contents q).Perm (a :: contents q')
  pop_top : ∀ q a q', pop q = some (a, q') → ∀ b ∈ contents q', comp a b = false

/-- List queue: removes the top element of a list, the earliest one among
those the comparator places before no other. -/
def popTop {α : Type} (comp : α → α → Bool) : List α → Option (α × List α)
  | [] => none
  | a :: q =>
    match popTop comp q with
    | none => some (a, [])
    | some (b, q') => if comp a b then some (b, a :: q') else some (a, q)

/-! ## The search -/

/-- The cell `platforms[routePlatNum - 1]` of `findFastestRoute`, as its edge list. -/
def outEdges (platforms : PlatformArr T) (routePlatNum : Nat) : List (RingLevel T) :=
  match readCell platforms (cellIndex routePlatNum) with
  | some routePlat => routePlat.connectedLevels
  | none => []

variable [LT T] [DecidableRel (fun a b : T => a < b)] [Add T] [Zero T]

/-- The inner `for` loop of `findFastestRoute`: extends `curRoute` by every
outbound edge and pushes the candidates that pass the revisit filter. -/
def pushNext (Q : PriorityQueue (Route T) routeComp) (curRoute : Route T)
    (connectedLevels : List (RingLevel T)) (queue : Q.State) : Q.State :=
  connectedLevels.foldl
    (fun queue connectedPlat =>
      let nextRoute := Route.extend curRoute connectedPlat
      if !tooManySameLevels nextRoute then Q.push queue nextRoute else queue)
    queue

/-- The `while` loop of `findFastestRoute` with a step budget; `none` means the
budget ran out. -/
def searchLoop (Q : PriorityQueue (Route T) routeComp) (platforms : PlatformArr T) :
    Nat → Q.State → Option (Route T)
  | 0, _ => none
  | fuel + 1, queue =>
    match Q.pop queue with
    | none => some Route.new
    | some (curRoute, queue) =>
      if allLevelVisitedInRoute curRoute then some curRoute
      else if atMaxPathLength curRoute then searchLoop Q platforms fuel queue
      else
        let routePlatNum := curRoute.routePath.getLastD 0
        searchLoop Q platforms fuel
          (pushNext Q curRoute (outEdges platforms routePlatNum) queue)

/-- The function `findFastestRoute` run with a given step budget. -/
def findFastestRouteFuel (Q : PriorityQueue (Route T) routeComp) (fuel : Nat)
    (startRoute : Route T) (platforms : PlatformArr T) : Option (Route T) :=
  searchLoop Q platforms fuel (Q.push Q.empty startRoute)

/-- Largest number of outbound edges of a platform. -/
def maxDegree (platforms : PlatformArr T) : Nat :=
  (platforms.map (fun p => p.connectedLevels.length)).foldr max 0

/-- A step budget that the loop of `findFastestRoute` never exhausts. -/
def searchFuel (platforms : PlatformArr T) : Nat :=
  (maxDegree platforms + 1) ^ MAX_PLATFORMS_IN_ROUTE + 1

/-- The function `findFastestRoute`. -/
def findFastestRoute (Q : PriorityQueue (Route T) routeComp) (startRoute : Route T)
    (platforms : PlatformArr T) : Option (Route T) :=
  findFastestRouteFuel Q (searchFuel platforms) startRoute platforms

/-- The routes that the loop of `findFastestRoute` handles within the budget, in
order: every route it pops (on which it calls `allLevelVisitedInRoute` and
`atMaxPathLength` and whose last identifier indexes `platforms`) and every
candidate `nextRoute` it builds (on which it calls `tooManySameLevels`), pushed
or not. -/
def searchTrace (Q : PriorityQueue (Route T) routeComp) (platforms : PlatformArr T) :
    Nat → Q.State → List (Route T)
  | 0, _ => []
  | fuel + 1, queue =>
    match Q.pop queue with
    | none => []
    | some (curRoute, queue) =>
      if allLevelVisitedInRoute curRoute then [curRoute]
      else if atMaxPathLength curRoute then curRoute :: searchTrace Q platforms fuel queue
      else
        let routePlatNum := curRoute.routePath.getLastD 0
        curRoute :: ((outEdges platforms routePlatNum).map (Route.extend curRoute) ++
          searchTrace Q platforms fuel
            (pushNext Q curRoute (outEdges platforms routePlatNum) queue))

/-- The routes handled by `findFastestRoute` run with a given step budget: the
pushed start route, then those of the loop. -/
def findFastestRouteTrace (Q : PriorityQueue (Route T) routeComp) (fuel : Nat)
    (startRoute : Route T) (platforms : PlatformArr T) : List (Route T) :=
  startRoute :: searchTrace Q platforms fuel (Q.push Q.empty startRoute)

/-! ## The constructor call with its argument threaded through -/

/-- One iteration of the copy loop of `Route::Route(const Route &, const RingLevel &)`,
`this->routePath.push_back(route.routePath.at(i))`, on the pair of the argument
`route` and the path under construction. For `i` outside the path `at` throws;
the loop bound keeps `i` inside. -/
def copyStep (st : Route T × List Nat) (i : Nat) : Route T × List Nat :=
  match st.1.routePath[i]? with
  | some platform => (st.1, st.2 ++ [platform])
  | none => st

/-- The call `Route(route, next)` as a state transformer: returns the argument
`route` as it stands after the call, and the constructed route. -/
def Route.extendCall (route : Route T) (next : RingLevel T) : Route T × Route T :=
  let st := (List.range route.routePath.length).foldl copyStep (route, [])
  (st.1, { routePath := st.2 ++ [next.destinationLevel]
           routeTime := st.1.routeTime + next.levelTime })

/-! ## The loader -/

/-- The largest value of an `int` of 32 bits: a digit string with a larger value
makes `std::stoi` throw `std::out_of_range`. -/
def INT_MAX : Nat := 2147483647

/-- A line of `times.txt` that the pattern `(\\d+) -> (\\d+): (\\d+\\.\\d+)` matches:
the numbers written by the captures `match[1]` and `match[2]`, digit strings of
any length, before `std::stoi` is applied to them, and the time that
`std::stof` returned for `match[3]`. A line on which `std::stof` throws is not
represented. -/
structure EdgeLine (T : Type) where
  curPlatform : Nat
  nextPlatform : Nat
  levelTime : T
deriving DecidableEq

/-- The call `std::stoi` on a digit string that writes the number `digits`: the
number when it fits an `int`, and `none` when `std::stoi` throws
`std::out_of_range`. -/
def stoi (digits : Nat) : Option Nat :=
  if digits ≤ INT_MAX then some digits else none

/-- What the body of the `while` loop of `parseTimesFile` does on one line:
it completes and the loop goes on with the array `stored`; or `std::stoi`
throws before anything is stored, no handler catches the exception and the
program ends (`thrown`); or `platforms[curPlatform - 1]` lies outside the array,
which C++ leaves undefined (`outOfBounds`). -/
inductive LineOutcome (T : Type) where
  | stored (platforms : PlatformArr T)
  | thrown
  | outOfBounds
deriving DecidableEq

/-- The body of the `while` loop of `parseTimesFile` on one line; a line is
`none` when the pattern does not match it (a diagnostic is printed and nothing
is stored). The two calls of `std::stoi` come first, in the order of the
source. The two `uint8_t` conversions reduce modulo 256. -/
def parseLine (platforms : PlatformArr T) : Option (EdgeLine T) → LineOutcome T
  | none => LineOutcome.stored platforms
  | some line =>
    match stoi line.curPlatform with
    | none => LineOutcome.thrown
    | some curPlatform =>
      match stoi line.nextPlatform with
      | none => LineOutcome.thrown
      | some nextPlatform =>
        match readCell platforms (cellIndex curPlatform) with
        | none => LineOutcome.outOfBounds
        | some routePlat =>
          LineOutcome.stored (writeCell platforms (cellIndex curPlatform)
            { platformLevel := curPlatform % 256
              connectedLevels := routePlat.connectedLevels ++
                [{ destinationLevel := nextPlatform % 256, levelTime := line.levelTime }] })

/-- The `while` loop of `parseTimesFile` over the lines of the file; `none`
when the loop does not run to its end, because `std::stoi` threw or an access
was outside the array. -/
def parseLines : PlatformArr T → List (Option (EdgeLine T)) → Option (PlatformArr T)
  | platforms, [] => some platforms
  | platforms, line :: rest =>
    match parseLine platforms line with
    | LineOutcome.stored platforms => parseLines platforms rest
    | LineOutcome.thrown => none
    | LineOutcome.outOfBounds => none

/-- The function `parseTimesFile`, on the lines of `times.txt`: starts from the
value-initialised array (identifier 0, no edges, in each of the 13 cells). -/
def parseTimesFile (lines : List (Option (EdgeLine T))) : Option (PlatformArr T) :=
  parseLines (List.replicate NUM_LEVELS { platformLevel := 0, connectedLevels := [] }) lines

/-- The (destination, time) pairs of the lines whose source is `i`, in file order. -/
def edgesFrom (lines : List (Option (EdgeLine T))) (i : Nat) : List (RingLevel T) :=
  lines.filterMap (fun line =>
    match line with
    | some l =>
      if l.curPlatform = i then
        some { destinationLevel := l.nextPlatform, levelTime := l.levelTime }
      else none
    | none => none)

/-! ## Walks of the graph, used to state the properties of the search -/

/-- A graph as the search expects it: 13 cells, every edge destination in `1..13`. -/
def GraphOK (platforms : PlatformArr T) : Prop :=
  platforms.length = NUM_LEVELS ∧
    ∀ p ∈ platforms, ∀ e ∈ p.connectedLevels,
      1 ≤ e.destinationLevel ∧ e.destinationLevel ≤ NUM_LEVELS

/-- The edge list `es` can be followed step by step from node `s`: each edge is
an outbound edge of the node reached so far. -/
def IsWalk (platforms : PlatformArr T) : Nat → List (RingLevel T) → Prop
  | _, [] => True
  | s, e :: es => e ∈ outEdges platforms s ∧ IsWalk platforms e.destinationLevel es

/-- The identifiers visited by following `es` from `s`. -/
def walkPath (s : Nat) (es : List (RingLevel T)) : List Nat :=
  s :: es.map (fun e => e.destinationLevel)

/-- The time of following `es`: `0 + time(e_1) + ... + time(e_k)`, added in path order. -/
def walkTime (es : List (RingLevel T)) : T :=
  es.foldl (fun t e => t + e.levelTime) 0

/-- The route of following `es` from `s`. -/
def walkRoute (s : Nat) (es : List (RingLevel T)) : Route T :=
  { routePath := walkPath s es, routeTime := walkTime es }

/-- A walk that the search may return: it follows edges from `s`, contains all
identifiers `1..13`, has at most 15 nodes and passes the revisit filter. -/
def IsCandidate (platforms : PlatformArr T) (s : Nat) (es : List (RingLevel T)) : Prop :=
  IsWalk platforms s es ∧
    (∀ i, 1 ≤ i → i ≤ NUM_LEVELS → i ∈ walkPath s es) ∧
    (walkPath s es).length ≤ MAX_PLATFORMS_IN_ROUTE ∧
    tooManySameLevels (walkRoute s es) = false

/-- Node `t` lies on some walk of the graph from `s`. -/
def Reachable (platforms : PlatformArr T) (s t : Nat) : Prop :=
  ∃ es, IsWalk platforms s es ∧ t ∈ walkPath s es

/-- The counter array of `tooManySameLevels` after the first loop, written out:
cell `i` holds the number of occurrences of `i + 1`, modulo 256. -/
def visitCounts (path : List Nat) : List Nat :=
  (List.range NUM_LEVELS).map (fun i => path.count (i + 1) % 256)

/-- The candidates pushed by one expansion of `curRoute`. -/
def newRoutes (platforms : PlatformArr T) (curRoute : Route T) : List (Route T) :=
  ((outEdges platforms (curRoute.routePath.getLastD 0)).map (Route.extend curRoute)).filter
    (fun nextRoute => !tooManySameLevels nextRoute)

/-- Weight of a queued route in the termination measure, for out-degree at most `b`. -/
def routeWeight (b : Nat) (r : Route T) : Nat :=
  (b + 1) ^ (MAX_PLATFORMS_IN_ROUTE - r.routePath.length)

/-- Termination measure of the search loop: total weight of the queued routes. -/
def queueWeight (b : Nat) (l : List (Route T)) : Nat :=
  (l.map (routeWeight b)).sum

end Model

/-! ## An executable queue -/

section ListQueue

variable {α : Type} {comp : α → α → Bool}

theorem popTop_none : ∀ q : List α, popTop comp q = none → q = []
  | [], _ => rfl
  | a :: q, h => by
    simp only [popTop] at h
    split at h
    · simp at h
    · split at h <;> simp at h

theorem popTop_perm : ∀ (q : List α) (a : α) (q' : List α),
    popTop comp q = some (a, q') → q.Perm (a :: q')
  | [], _, _, h => by simp [popTop] at h
  | x :: q, a, q', h => by
    simp only [popTop] at h
    split at h
    · rename_i hq
      simp only [Option.some.injEq, Prod.mk.injEq] at h
      obtain ⟨rfl, rfl⟩ := h
      rw [popTop_none q hq]
    · rename_i b r hq
      have ih := popTop_perm q b r hq
      split at h
      · simp only [Option.some.injEq, Prod.mk.injEq] at h
        obtain ⟨rfl, rfl⟩ := h
        exact (List.Perm.cons x ih).trans (List.Perm.swap _ _ _)
      · simp only [Option.some.injEq, Prod.mk.injEq] at h
        obtain ⟨rfl, rfl⟩ := h
        exact List.Perm.refl _

theorem popTop_top (hasymm : ∀ a b, comp a b = true → comp b a = false)
    (htrans : ∀ a b c, comp a b = false → comp b c = false → comp a c = false) :
    ∀ (q : List α) (a : α) (q' : List α),
      popTop comp q = some (a, q') → ∀ b ∈ q', comp a b = false
  | [], _, _, h => by simp [popTop] at h
  | x :: q, a, q', h => by
    simp only [popTop] at h
    split at h
    · simp only [Option.some.injEq, Prod.mk.injEq] at h
      obtain ⟨rfl, rfl⟩ := h
      simp
    · rename_i b r hq
      have ih := popTop_top hasymm htrans q b r hq
      have hperm := popTop_perm q b r hq
      split at h
      · rename_i hc
        simp only [Option.some.injEq, Prod.mk.injEq] at h
        obtain ⟨rfl, rfl⟩ := h
        intro y hy
        rcases List.mem_cons.1 hy with rfl | hy
        · exact hasymm _ _ hc
        · exact ih y hy
      · rename_i hc
        simp only [Option.some.injEq, Prod.mk.injEq] at h
        obtain ⟨rfl, rfl⟩ := h
        have hxb : comp x b = false := by simpa using hc
        intro y hy
        rcases List.mem_cons.1 (hperm.subset hy) with rfl | hy
        · exact hxb
        · exact htrans _ _ _ hxb (ih y hy)

theorem routeComp_asymm {T : Type} [LinearOrder T] (a b : Route T) :
    routeComp a b = true → routeComp b a = false := by
  simp only [routeComp, gt_iff_lt, decide_eq_true_eq, decide_eq_false_iff_not, not_lt]
  exact le_of_lt

theorem routeComp_trans {T : Type} [LinearOrder T] (a b c : Route T) :
    routeComp a b = false → routeComp b c = false → routeComp a c = false := by
  simp only [routeComp, gt_iff_lt, decide_eq_false_iff_not, not_lt]
  exact le_trans

/-- A queue meeting the contract: a list in insertion order, `pop` removing
the earliest route of least time. -/
def listQueue (T : Type) [LinearOrder T] : PriorityQueue (Route T) routeComp where
  State := List (Route T)
  empty := []
  push q a := q ++ [a]
  pop q := popTop routeComp q
  contents q := q
  contents_empty := rfl
  contents_push q a := List.perm_append_singleton a q
  pop_none q h := popTop_none q h
  pop_some q a q' h := popTop_perm q a q' h
  pop_top q a q' h := popTop_top routeComp_asymm routeComp_trans q a q' h

end ListQueue

/-! ## Decision procedures and example graphs -/

instance GraphOK.decidable {T : Type} (platforms : PlatformArr T) :
    Decidable (GraphOK platforms) :=
  inferInstanceAs (Decidable (platforms.length = NUM_LEVELS ∧
    ∀ p ∈ platforms, ∀ e ∈ p.connectedLevels,
      1 ≤ e.destinationLevel ∧ e.destinationLevel ≤ NUM_LEVELS))

instance IsWalk.decidable {T : Type} [DecidableEq T] (platforms : PlatformArr T) :
    ∀ (s : Nat) (es : List (RingLevel T)), Decidable (IsWalk platforms s es)
  | _, [] => isTrue trivial
  | s, e :: es =>
    have := IsWalk.decidable platforms e.destinationLevel es
    inferInstanceAs (Decidable (e ∈ outEdges platforms s ∧
      IsWalk platforms e.destinationLevel es))

instance IsCandidate.decidable {T : Type} [DecidableEq T] [Add T] [Zero T]
    (platforms : PlatformArr T) (s : Nat) (es : List (RingLevel T)) :
    Decidable (IsCandidate platforms s es) :=
  inferInstanceAs (Decidable (IsWalk platforms s es ∧
    (∀ i, 1 ≤ i → i ≤ NUM_LEVELS → i ∈ walkPath s es) ∧
    (walkPath s es).length ≤ MAX_PLATFORMS_IN_ROUTE ∧
    tooManySameLevels (walkRoute s es) = false))

/-- The chain `1 -> 2 -> ... -> 13`, every edge of time 1. -/
def chainGraph : PlatformArr Nat :=
  (List.range 13).map (fun i =>
    { platformLevel := i + 1
      connectedLevels := if i < 12 then [{ destinationLevel := i + 2, levelTime := 1 }] else [] })

/-- The edges of the chain in order. -/
def chainEdges : List (RingLevel Nat) :=
  (List.range 12).map (fun i => { destinationLevel := i + 2, levelTime := 1 })

/-- The route along the chain from platform 1. -/
def chainRoute : Route Nat :=
  { routePath := [1, 2, 3, 4, 5, 6, 7, 8, 9, 10, 11, 12, 13], routeTime := 12 }

/-- The chain with a second, slower edge `1 -> 2` listed first. -/
def forkGraph : PlatformArr Nat :=
  { platformLevel := 1
    connectedLevels := [{ destinationLevel := 2, levelTime := 5 },
                        { destinationLevel := 2, levelTime := 1 }] } :: chainGraph.tail

/-- The graph `forkGraph` with the two edges of platform 1 in the other order. -/
def forkGraphSwapped : PlatformArr Nat :=
  { platformLevel := 1
    connectedLevels := [{ destinationLevel := 2, levelTime := 1 },
                        { destinationLevel := 2, levelTime := 5 }] } :: chainGraph.tail

/-- The lines `1 -> 2: 1.0`, ..., `12 -> 13: 1.0` of a times file, with whole
times. -/
def chainLines : List (Option (EdgeLine Nat)) :=
  (List.range 12).map (fun i => some { curPlatform := i + 1, nextPlatform := i + 2, levelTime := 1 })

/-- Thirteen platforms without any edge. -/
def isolatedGraph : PlatformArr Nat :=
  (List.range 13).map (fun i => { platformLevel := i + 1, connectedLevels := [] })

/-! ## Facts about the route constructors and the tests -/

section PathTests

variable {T : Type}

theorem foldl_snoc_eq (l init : List Nat) :
    l.foldl (fun acc x => acc ++ [x]) init = init ++ l := by
  induction l generalizing init with
  | nil => simp
  | cons a l ih => simp [ih]

theorem copyPath_eq (l : List Nat) : copyPath l = l := by
  simp [copyPath, foldl_snoc_eq]

theorem readCell_cellIndex {α : Type} (arr : List α) (x : Nat) (hx : 1 ≤ x) :
    readCell arr (cellIndex x) = arr[x - 1]? := by
  have h0 : (0 : Int) ≤ (x : Int) - 1 := by omega
  have h1 : ((x : Int) - 1).toNat = x - 1 := by omega
  simp [readCell, cellIndex, h0, h1]

theorem writeCell_cellIndex {α : Type} (arr : List α) (x : Nat) (v : α) (hx : 1 ≤ x) :
    writeCell arr (cellIndex x) v = arr.set (x - 1) v := by
  have h0 : (0 : Int) ≤ (x : Int) - 1 := by omega
  have h1 : ((x : Int) - 1).toNat = x - 1 := by omega
  simp [writeCell, cellIndex, h0, h1]

theorem length_writeCell {α : Type} (arr : List α) (i : Int) (v : α) :
    (writeCell arr i v).length = arr.length := by
  unfold writeCell
  split <;> simp

theorem mem_of_readCell {α : Type} (arr : List α) (i : Int) (a : α)
    (h : readCell arr i = some a) : a ∈ arr := by
  unfold readCell at h
  split at h
  · exact List.getElem?_mem h
  · simp at h

theorem markVisited_eq (chk : List Bool) (x : Nat) (hx : 1 ≤ x) :
    markVisited chk x = chk.set (x - 1) true :=
  writeCell_cellIndex chk x true hx

theorem countVisit_eq (chk : List Nat) (x : Nat) (hx : 1 ≤ x) :
    countVisit chk x = chk.set (x - 1) ((chk.getD (x - 1) 0 + 1) % 256) := by
  unfold countVisit
  rw [readCell_cellIndex chk x hx]
  cases h : chk[x - 1]? with
  | none =>
    have hlen : chk.length ≤ x - 1 := by
      by_contra hlt
      rw [List.getElem?_eq_getElem (by omega)] at h
      simp at h
    simp only
    rw [List.set_eq_of_length_le hlen]
  | some c =>
    simp only
    rw [writeCell_cellIndex chk x _ hx, List.getD_eq_getElem?_getD, h]
    rfl

theorem length_markVisited (chk : List Bool) (x : Nat) :
    (markVisited chk x).length = chk.length :=
  length_writeCell _ _ _

theorem length_countVisit (chk : List Nat) (x : Nat) :
    (countVisit chk x).length = chk.length := by
  unfold countVisit
  split
  · exact length_writeCell _ _ _
  · rfl

theorem foldl_markVisited_length (path : List Nat) (chk : List Bool) :
    (path.foldl markVisited chk).length = chk.length := by
  induction path generalizing chk with
  | nil => rfl
  | cons x xs ih => simp [List.foldl_cons, ih, length_markVisited]

theorem foldl_markVisited_getElem? (path : List Nat) (chk : List Bool) (i : Nat)
    (hpos : ∀ x ∈ path, 1 ≤ x) (hi : i < chk.length) :
    (path.foldl markVisited chk)[i]? = some (chk.getD i false || decide (i + 1 ∈ path)) := by
  induction path generalizing chk with
  | nil => simp [List.getD_eq_getElem?_getD, List.getElem?_eq_getElem hi]
  | cons x xs ih =>
    have hx : 1 ≤ x := hpos x (List.mem_cons_self _ _)
    have hxs : ∀ y ∈ xs, 1 ≤ y := fun y hy => hpos y (List.mem_cons_of_mem _ hy)
    rw [List.foldl_cons, ih (markVisited chk x) hxs (by simpa [length_markVisited] using hi)]
    congr 1
    simp only [markVisited_eq chk x hx, List.getD_eq_getElem?_getD, List.getElem?_set,
      List.mem_cons]
    by_cases hxi : x - 1 = i
    · have : i + 1 = x := by omega
      simp [hxi, hi, this]
    · have : ¬ i + 1 = x := by omega
      simp [hxi, this]

/-- The goal test holds exactly when every identifier of `1..13` is on the path. -/
theorem allLevelVisitedInRoute_iff (r : Route T) (hpos : ∀ x ∈ r.routePath, 1 ≤ x) :
    allLevelVisitedInRoute r = true ↔
      ∀ i, 1 ≤ i → i ≤ NUM_LEVELS → i ∈ r.routePath := by
  simp only [allLevelVisitedInRoute, List.all_eq_true]
  constructor
  · intro h i hi1 hi2
    have hlen : i - 1 < (List.replicate NUM_LEVELS false).length := by
      simp only [List.length_replicate]; omega
    have hget := foldl_markVisited_getElem? r.routePath _ (i - 1) hpos hlen
    have hlen2 : i - 1 < (r.routePath.foldl markVisited (List.replicate NUM_LEVELS false)).length := by
      rw [foldl_markVisited_length]; exact hlen
    have hmem := h _ (List.getElem_mem hlen2)
    rw [List.getElem?_eq_getElem hlen2] at hget
    have h1 : i - 1 + 1 = i := by omega
    have h2 : i - 1 < NUM_LEVELS := by omega
    simp only [Option.some.injEq] at hget
    rw [hget] at hmem
    simpa [List.getD_eq_getElem?_getD, List.getElem?_replicate, h1, h2] using hmem
  · intro h v hv
    obtain ⟨n, hn, rfl⟩ := List.mem_iff_getElem.1 hv
    have hn2 : n < (List.replicate NUM_LEVELS false).length := by
      rw [foldl_markVisited_length] at hn; exact hn
    have hget := foldl_markVisited_getElem? r.routePath _ n hpos hn2
    rw [List.getElem?_eq_getElem hn] at hget
    simp only [Option.some.injEq] at hget
    rw [hget]
    have hn3 : n < NUM_LEVELS := by simpa using hn2
    have := h (n + 1) (by omega) (by omega)
    simp [this]

theorem foldl_countVisit_length (path : List Nat) (chk : List Nat) :
    (path.foldl countVisit chk).length = chk.length := by
  induction path generalizing chk with
  | nil => rfl
  | cons x xs ih => simp [List.foldl_cons, ih, length_countVisit]

theorem foldl_countVisit_getElem? (path : List Nat) (chk : List Nat) (i : Nat)
    (hpos : ∀ x ∈ path, 1 ≤ x) (hi : i < chk.length) (hchk : chk.getD i 0 < 256) :
    (path.foldl countVisit chk)[i]? = some ((chk.getD i 0 + path.count (i + 1)) % 256) := by
  induction path generalizing chk with
  | nil =>
    simp only [List.foldl_nil, List.count_nil, Nat.add_zero, Nat.mod_eq_of_lt hchk]
    simp [List.getD_eq_getElem?_getD, List.getElem?_eq_getElem hi]
  | cons x xs ih =>
    have hx : 1 ≤ x := hpos x (List.mem_cons_self _ _)
    have hxs : ∀ y ∈ xs, 1 ≤ y := fun y hy => hpos y (List.mem_cons_of_mem _ hy)
    have hi2 : i < (countVisit chk x).length := by simpa [length_countVisit] using hi
    by_cases hxi : x - 1 = i
    · have hxe : x = i + 1 := by omega
      have hval : (countVisit chk x).getD i 0 = (chk.getD i 0 + 1) % 256 := by
        simp [countVisit_eq chk x hx, List.getD_eq_getElem?_getD, List.getElem?_set, hxi, hi]
      rw [List.foldl_cons, ih (countVisit chk x) hxs hi2 (by rw [hval]; exact Nat.mod_lt _ (by decide))]
      rw [hval, hxe, List.count_cons_self]
      congr 1
      omega
    · have hxe : ¬ x = i + 1 := by omega
      have hval : (countVisit chk x).getD i 0 = chk.getD i 0 := by
        simp [countVisit_eq chk x hx, List.getD_eq_getElem?_getD, List.getElem?_set, hxi]
      rw [List.foldl_cons, ih (countVisit chk x) hxs hi2 (by rw [hval]; exact hchk)]
      rw [hval, List.count_cons_of_ne (Ne.symm hxe)]

theorem foldl_countVisit_eq (path : List Nat) (hpos : ∀ x ∈ path, 1 ≤ x) :
    path.foldl countVisit (List.replicate NUM_LEVELS 0) = visitCounts path := by
  apply List.ext_getElem?
  intro i
  by_cases hi : i < NUM_LEVELS
  · rw [foldl_countVisit_getElem? path _ i hpos (by simpa using hi)
      (by simp [List.getD_eq_getElem?_getD, List.getElem?_replicate, hi])]
    simp [visitCounts, List.getD_eq_getElem?_getD, List.getElem?_replicate, hi]
  · have h1 : (path.foldl countVisit (List.replicate NUM_LEVELS 0)).length ≤ i := by
      rw [foldl_countVisit_length]; simpa using hi
    have h2 : (visitCounts path).length ≤ i := by simpa [visitCounts] using hi
    rw [List.getElem?_eq_none h1, List.getElem?_eq_none h2]

theorem scanVisits_eq (l : List Nat) (d : Nat) :
    scanVisits l d = decide ((∃ v ∈ l, 3 ≤ v) ∨ 2 < d + l.count 2) := by
  induction l generalizing d with
  | nil => simp [scanVisits]
  | cons v l ih =>
    simp only [scanVisits, ge_iff_le]
    by_cases h3 : 3 ≤ v
    · simp [h3]
    · by_cases h2 : v = 2
      · subst h2
        simp only [h3, if_false, if_true, ih, List.count_cons_self, List.mem_cons,
          exists_eq_or_imp, false_or]
        congr 1
        apply propext
        constructor <;> (rintro (h | h) <;> [exact Or.inl h; (right; omega)])
      · simp only [h3, h2, if_false, ih, List.mem_cons, exists_eq_or_imp, false_or]
        rw [List.count_cons_of_ne (Ne.symm h2)]

/-- The revisit filter in terms of occurrence counts. -/
theorem tooManySameLevels_iff (r : Route T) (hpos : ∀ x ∈ r.routePath, 1 ≤ x) :
    tooManySameLevels r = true ↔
      (∃ v ∈ visitCounts r.routePath, 3 ≤ v) ∨ 2 < (visitCounts r.routePath).count 2 := by
  simp only [tooManySameLevels, foldl_countVisit_eq r.routePath hpos, scanVisits_eq,
    decide_eq_true_eq, Nat.zero_add]

theorem mem_visitCounts (path : List Nat) (v : Nat) :
    v ∈ visitCounts path ↔ ∃ i, i < NUM_LEVELS ∧ path.count (i + 1) % 256 = v := by
  simp [visitCounts]

theorem visitCounts_count_two (path : List Nat) :
    (visitCounts path).count 2 =
      (List.range NUM_LEVELS).countP (fun i => path.count (i + 1) % 256 == 2) := by
  rw [visitCounts, List.count_eq_countP, List.countP_map]
  rfl

/-- The revisit filter over the cells `0..12` of the counter array. -/
theorem tooManySameLevels_iff_count (r : Route T) (hpos : ∀ x ∈ r.routePath, 1 ≤ x) :
    tooManySameLevels r = true ↔
      (∃ i, i < NUM_LEVELS ∧ 3 ≤ r.routePath.count (i + 1) % 256) ∨
        2 < (List.range NUM_LEVELS).countP (fun i => r.routePath.count (i + 1) % 256 == 2) := by
  rw [tooManySameLevels_iff r hpos, visitCounts_count_two]
  constructor
  · rintro (⟨v, hv, h3⟩ | h)
    · obtain ⟨i, hi, rfl⟩ := (mem_visitCounts _ _).1 hv
      exact Or.inl ⟨i, hi, h3⟩
    · exact Or.inr h
  · rintro (⟨i, hi, h3⟩ | h)
    · exact Or.inl ⟨_, (mem_visitCounts _ _).2 ⟨i, hi, rfl⟩, h3⟩
    · exact Or.inr h

/-- A path rejected by the revisit filter stays rejected when one more
identifier is appended, as long as no 8-bit counter can wrap. -/
theorem tooManySameLevels_snoc (p : List Nat) (x : Nat) (t t' : T)
    (hpos : ∀ y ∈ p, 1 ≤ y) (hx : 1 ≤ x) (hlen : p.length < 255)
    (h : tooManySameLevels (⟨p, t⟩ : Route T) = true) :
    tooManySameLevels (⟨p ++ [x], t'⟩ : Route T) = true := by
  have hpos' : ∀ y ∈ p ++ [x], 1 ≤ y := by
    intro y hy
    rcases List.mem_append.1 hy with hy | hy
    · exact hpos y hy
    · simp only [List.mem_singleton] at hy; omega
  rw [tooManySameLevels_iff_count _ hpos] at h
  rw [tooManySameLevels_iff_count _ hpos']
  simp only at h ⊢
  have hsmall : ∀ y, p.count y < 255 := fun y =>
    lt_of_le_of_lt (List.count_le_length _ _) hlen
  have hcnt : ∀ y, (p ++ [x]).count y = p.count y + if x = y then 1 else 0 := by
    intro y
    rw [List.count_append, List.count_singleton]
    simp
  rcases h with ⟨i, hi, h3⟩ | h
  · left
    refine ⟨i, hi, ?_⟩
    have := hsmall (i + 1)
    rw [hcnt]
    split <;> omega
  · by_cases hdouble : x - 1 < NUM_LEVELS ∧ p.count x = 2
    · left
      refine ⟨x - 1, hdouble.1, ?_⟩
      have hx1 : x - 1 + 1 = x := by omega
      rw [hx1, hcnt, hdouble.2]
      simp
    · right
      refine lt_of_lt_of_le h (List.countP_mono_left ?_)
      intro i hi h2
      have hi' : i < NUM_LEVELS := List.mem_range.1 hi
      have := hsmall (i + 1)
      simp only [beq_iff_eq] at h2 ⊢
      rw [hcnt]
      have hne : ¬ x = i + 1 := by
        rintro rfl
        apply hdouble
        refine ⟨by simpa using hi', ?_⟩
        omega
      rw [if_neg hne]
      omega

/-- The revisit filter rejects a path on which some identifier has a number of
occurrences that is at least 3 modulo 256. -/
theorem tooManySameLevels_of_count_mod (r : Route T) (x : Nat)
    (hrange : ∀ y ∈ r.routePath, 1 ≤ y ∧ y ≤ NUM_LEVELS)
    (h3 : 3 ≤ r.routePath.count x % 256) : tooManySameLevels r = true := by
  have hpos : 0 < r.routePath.count x := by
    rcases Nat.eq_zero_or_pos (r.routePath.count x) with h0 | h0
    · rw [h0] at h3; simp at h3
    · exact h0
  obtain ⟨h1, h13⟩ := hrange x (List.count_pos_iff.1 hpos)
  rw [tooManySameLevels_iff_count r (fun y hy => (hrange y hy).1)]
  left
  refine ⟨x - 1, by omega, ?_⟩
  have : x - 1 + 1 = x := by omega
  rw [this]; exact h3

theorem countP_range_eq_card (f : Nat → Nat) (n : Nat) :
    (List.range n).countP (fun i => f i == 2) =
      ((Finset.range n).filter (fun i => f i = 2)).card := by
  induction n with
  | zero => simp
  | succ n ih =>
    rw [List.range_succ, List.countP_append, ih, Finset.range_succ, Finset.filter_insert]
    by_cases h : f n = 2
    · rw [if_pos h, Finset.card_insert_of_not_mem (by simp)]
      simp [h]
    · rw [if_neg h]
      simp [h]

/-- The cells holding 2 are as many as the distinct identifiers that occur
exactly twice, when all identifiers lie in `1..13`. -/
theorem doubles_card_eq (path : List Nat)
    (hrange : ∀ x ∈ path, 1 ≤ x ∧ x ≤ NUM_LEVELS) :
    ((Finset.range NUM_LEVELS).filter (fun i => path.count (i + 1) = 2)).card =
      (path.toFinset.filter (fun x => path.count x = 2)).card := by
  rw [← Finset.card_image_of_injective _ (add_left_injective 1)]
  congr 1
  ext x
  simp only [Finset.mem_image, Finset.mem_filter, Finset.mem_range, List.mem_toFinset]
  constructor
  · rintro ⟨i, ⟨hi, h2⟩, rfl⟩
    exact ⟨List.count_pos_iff.1 (by omega), h2⟩
  · rintro ⟨hx, h2⟩
    obtain ⟨h1, h13⟩ := hrange x hx
    refine ⟨x - 1, ⟨by omega, ?_⟩, by omega⟩
    have : x - 1 + 1 = x := by omega
    rw [this]; exact h2

end PathTests

/-! ## Facts about walks -/

section Walks

variable {T : Type}

theorem ofStart_eq_walkRoute [Add T] [Zero T] (s : Nat) : (Route.ofStart s : Route T) = walkRoute s [] := rfl

theorem walkPath_append (s : Nat) (es : List (RingLevel T)) (e : RingLevel T) :
    walkPath s (es ++ [e]) = walkPath s es ++ [e.destinationLevel] := by
  simp [walkPath]

theorem walkTime_append [Add T] [Zero T] (es : List (RingLevel T)) (e : RingLevel T) :
    walkTime (es ++ [e]) = walkTime es + e.levelTime := by
  simp [walkTime, List.foldl_append]

/-- Extending the route of a walk by an edge gives the route of the longer walk. -/
theorem extend_walkRoute [Add T] [Zero T] (s : Nat) (es : List (RingLevel T)) (e : RingLevel T) :
    Route.extend (walkRoute s es) e = walkRoute s (es ++ [e]) := by
  simp [Route.extend, walkRoute, copyPath_eq, walkPath_append, walkTime_append]

theorem walkPath_length (s : Nat) (es : List (RingLevel T)) :
    (walkPath s es).length = es.length + 1 := by
  simp [walkPath]

theorem isWalk_append (platforms : PlatformArr T) (s : Nat) (es : List (RingLevel T))
    (e : RingLevel T) :
    IsWalk platforms s (es ++ [e]) ↔
      IsWalk platforms s es ∧ e ∈ outEdges platforms ((walkPath s es).getLastD 0) := by
  induction es generalizing s with
  | nil => simp [IsWalk, walkPath]
  | cons a es ih =>
    have hlast : (walkPath s (a :: es)).getLastD 0 =
        (walkPath a.destinationLevel es).getLastD 0 := by
      simp [walkPath, List.getLastD_cons]
    rw [List.cons_append, IsWalk, IsWalk, ih, hlast, and_assoc]

theorem isWalk_take (platforms : PlatformArr T) (s : Nat) (es : List (RingLevel T))
    (k : Nat) (h : IsWalk platforms s es) : IsWalk platforms s (es.take k) := by
  induction es generalizing s k with
  | nil => simpa using h
  | cons a es ih =>
    cases k with
    | zero => simp [IsWalk]
    | succ k => exact ⟨h.1, ih _ _ h.2⟩

theorem mem_outEdges (platforms : PlatformArr T) (n : Nat) (e : RingLevel T)
    (h : e ∈ outEdges platforms n) : ∃ p ∈ platforms, e ∈ p.connectedLevels := by
  unfold outEdges at h
  split at h
  · rename_i p hp
    exact ⟨p, mem_of_readCell _ _ _ hp, h⟩
  · simp at h

/-- All identifiers on a walk of a well-formed graph from a start in `1..13`
lie in `1..13`. -/
theorem walkPath_range (platforms : PlatformArr T) (hG : GraphOK platforms) (s : Nat)
    (hs : 1 ≤ s ∧ s ≤ NUM_LEVELS) (es : List (RingLevel T)) (h : IsWalk platforms s es) :
    ∀ x ∈ walkPath s es, 1 ≤ x ∧ x ≤ NUM_LEVELS := by
  induction es generalizing s with
  | nil => intro x hx; simp [walkPath] at hx; subst hx; exact hs
  | cons a es ih =>
    intro x hx
    simp only [walkPath, List.map_cons, List.mem_cons] at hx
    rcases hx with rfl | hx
    · exact hs
    · obtain ⟨p, hp, hap⟩ := mem_outEdges platforms s a h.1
      exact ih a.destinationLevel (hG.2 p hp a hap) h.2 x (by simpa [walkPath] using hx)

end Walks

/-! ## The search loop: queue contents, invariant rule, termination -/

section Search

variable {T : Type} [LT T] [DecidableRel (fun a b : T => a < b)] [Add T] [Zero T]

omit [Zero T] in
theorem contents_pushNext_perm (Q : PriorityQueue (Route T) routeComp) (cur : Route T)
    (edges : List (RingLevel T)) (q : Q.State) :
    (Q.contents (pushNext Q cur edges q)).Perm
      (((edges.map (Route.extend cur)).filter (fun r => !tooManySameLevels r)) ++
        Q.contents q) := by
  induction edges generalizing q with
  | nil => simp [pushNext]
  | cons e es ih =>
    have hstep : pushNext Q cur (e :: es) q =
        pushNext Q cur es
          (if !tooManySameLevels (Route.extend cur e) then Q.push q (Route.extend cur e)
            else q) := rfl
    rw [hstep]
    refine (ih _).trans ?_
    by_cases h : tooManySameLevels (Route.extend cur e) = true
    · simp [h]
    · have h' : tooManySameLevels (Route.extend cur e) = false := by simpa using h
      simp only [h', Bool.not_false, if_true, List.map_cons, List.filter_cons_of_pos,
        List.cons_append]
      exact (List.Perm.append_left _ (Q.contents_push q _)).trans List.perm_middle

omit [Zero T] in
/-- After one expansion the queue holds the new candidates and the old contents. -/
theorem contents_expand (Q : PriorityQueue (Route T) routeComp) (platforms : PlatformArr T)
    (cur : Route T) (q : Q.State) :
    (Q.contents (pushNext Q cur (outEdges platforms (cur.routePath.getLastD 0)) q)).Perm
      (newRoutes platforms cur ++ Q.contents q) :=
  contents_pushNext_perm Q cur _ q

/-- Invariant rule for the search loop, over the multiset of queued routes. -/
theorem searchLoop_rule (Q : PriorityQueue (Route T) routeComp) (platforms : PlatformArr T)
    (Inv : List (Route T) → Prop) (Post : Route T → Prop)
    (hperm : ∀ l l', l.Perm l' → Inv l → Inv l')
    (hempty : Inv [] → Post Route.new)
    (hgoal : ∀ cur rest, Inv (cur :: rest) → (∀ b ∈ rest, routeComp cur b = false) →
      allLevelVisitedInRoute cur = true → Post cur)
    (hcap : ∀ cur rest, Inv (cur :: rest) → allLevelVisitedInRoute cur = false →
      atMaxPathLength cur = true → Inv rest)
    (hexp : ∀ cur rest, Inv (cur :: rest) → allLevelVisitedInRoute cur = false →
      atMaxPathLength cur = false → Inv (newRoutes platforms cur ++ rest)) :
    ∀ (fuel : Nat) (q : Q.State) (r : Route T),
      Inv (Q.contents q) → searchLoop Q platforms fuel q = some r → Post r := by
  intro fuel
  induction fuel with
  | zero => intro q r _ h; simp [searchLoop] at h
  | succ fuel ih =>
    intro q r hinv h
    rw [searchLoop] at h
    split at h
    · rename_i hpop
      have hnil := Q.pop_none q hpop
      rw [hnil] at hinv
      simp only [Option.some.injEq] at h
      subst h
      exact hempty hinv
    · rename_i cur q' hpop
      have hinv' : Inv (cur :: Q.contents q') := hperm _ _ (Q.pop_some q cur q' hpop) hinv
      by_cases hall : allLevelVisitedInRoute cur = true
      · simp only [hall, if_true, Option.some.injEq] at h
        subst h
        exact hgoal _ _ hinv' (Q.pop_top q _ q' hpop) hall
      · have hall' : allLevelVisitedInRoute cur = false := by simpa using hall
        by_cases hmax : atMaxPathLength cur = true
        · simp only [hall', hmax, if_true] at h
          exact ih q' r (hcap _ _ hinv' hall' hmax) h
        · have hmax' : atMaxPathLength cur = false := by simpa using hmax
          simp only [hall', hmax'] at h
          refine ih _ r ?_ h
          exact hperm _ _ (contents_expand Q platforms cur q').symm
            (hexp _ _ hinv' hall' hmax')

omit [LT T] [DecidableRel (fun a b : T => a < b)] [Add T] [Zero T] in
theorem queueWeight_perm (b : Nat) (l l' : List (Route T)) (h : l.Perm l') :
    queueWeight b l = queueWeight b l' :=
  (h.map _).sum_eq

omit [LT T] [DecidableRel (fun a b : T => a < b)] [Add T] [Zero T] in
theorem routeWeight_pos (b : Nat) (r : Route T) : 0 < routeWeight b r :=
  Nat.pos_pow_of_pos _ (Nat.succ_pos b)

omit [LT T] [DecidableRel (fun a b : T => a < b)] [Add T] [Zero T] in
theorem queueWeight_le (b w : Nat) (l : List (Route T))
    (h : ∀ r ∈ l, routeWeight b r ≤ w) : queueWeight b l ≤ l.length * w := by
  induction l with
  | nil => simp [queueWeight]
  | cons a l ih =>
    have h1 := h a (List.mem_cons_self _ _)
    have h2 := ih (fun r hr => h r (List.mem_cons_of_mem _ hr))
    simp only [queueWeight, List.map_cons, List.sum_cons, List.length_cons] at h2 ⊢
    rw [Nat.succ_mul]
    omega

omit [LT T] [DecidableRel (fun a b : T => a < b)] [Zero T] in
/-- One expansion replaces a route by candidates of smaller total weight. -/
theorem queueWeight_newRoutes_lt (platforms : PlatformArr T) (cur : Route T) (b : Nat)
    (hb : ∀ n, (outEdges platforms n).length ≤ b) (hmax : atMaxPathLength cur = false) :
    queueWeight b (newRoutes platforms cur) < routeWeight b cur := by
  have hlen : cur.routePath.length < MAX_PLATFORMS_IN_ROUTE := by
    simpa [atMaxPathLength] using hmax
  set w := (b + 1) ^ (MAX_PLATFORMS_IN_ROUTE - (cur.routePath.length + 1)) with hw
  have hall : ∀ r ∈ newRoutes platforms cur, routeWeight b r ≤ w := by
    intro r hr
    simp only [newRoutes, List.mem_filter, List.mem_map] at hr
    obtain ⟨⟨e, _, rfl⟩, _⟩ := hr
    simp [routeWeight, Route.extend, copyPath_eq, hw]
  have hcount : (newRoutes platforms cur).length ≤ b := by
    refine le_trans (List.length_filter_le _ _) ?_
    rw [List.length_map]
    exact hb _
  have hcur : routeWeight b cur = (b + 1) * w := by
    have : MAX_PLATFORMS_IN_ROUTE - cur.routePath.length =
        MAX_PLATFORMS_IN_ROUTE - (cur.routePath.length + 1) + 1 := by omega
    rw [routeWeight, this, pow_succ, hw, Nat.mul_comm]
  have hwpos : 0 < w := Nat.pos_pow_of_pos _ (Nat.succ_pos b)
  calc queueWeight b (newRoutes platforms cur)
      ≤ (newRoutes platforms cur).length * w := queueWeight_le b w _ hall
    _ ≤ b * w := Nat.mul_le_mul_right _ hcount
    _ < (b + 1) * w := Nat.mul_lt_mul_of_pos_right (Nat.lt_succ_self b) hwpos
    _ = routeWeight b cur := hcur.symm

omit [LT T] [DecidableRel (fun a b : T => a < b)] [Add T] [Zero T] in
theorem outEdges_length_le (platforms : PlatformArr T) (n : Nat) :
    (outEdges platforms n).length ≤ maxDegree platforms := by
  have key : ∀ (l : PlatformArr T), ∀ p ∈ l, p.connectedLevels.length ≤ maxDegree l := by
    intro l
    induction l with
    | nil => intro p hp; simp at hp
    | cons a l ih =>
      intro p hp
      simp only [maxDegree, List.map_cons, List.foldr_cons] at ih ⊢
      rcases List.mem_cons.1 hp with rfl | hp
      · exact le_max_left _ _
      · exact le_trans (ih p hp) (le_max_right _ _)
  unfold outEdges
  split
  · rename_i p hp
    exact key platforms p (mem_of_readCell _ _ _ hp)
  · simp

/-- The loop returns as soon as the step budget exceeds the weight of the queue. -/
theorem searchLoop_terminates (Q : PriorityQueue (Route T) routeComp)
    (platforms : PlatformArr T) :
    ∀ (fuel : Nat) (q : Q.State),
      queueWeight (maxDegree platforms) (Q.contents q) < fuel →
        ∃ r, searchLoop Q platforms fuel q = some r := by
  intro fuel
  induction fuel with
  | zero => intro q h; omega
  | succ fuel ih =>
    intro q h
    rw [searchLoop]
    split
    · exact ⟨_, rfl⟩
    · rename_i cur q' hpop
      have hq := queueWeight_perm (maxDegree platforms) _ _ (Q.pop_some q cur q' hpop)
      have hpos := routeWeight_pos (maxDegree platforms) cur
      have hcons : queueWeight (maxDegree platforms) (cur :: Q.contents q') =
          routeWeight (maxDegree platforms) cur +
            queueWeight (maxDegree platforms) (Q.contents q') := by
        simp [queueWeight]
      by_cases hall : allLevelVisitedInRoute cur = true
      · exact ⟨cur, by simp [hall]⟩
      · have hall' : allLevelVisitedInRoute cur = false := by simpa using hall
        by_cases hmax : atMaxPathLength cur = true
        · simp only [hall', hmax, if_true]
          exact ih q' (by omega)
        · have hmax' : atMaxPathLength cur = false := by simpa using hmax
          simp only [hall', hmax']
          apply ih
          have hnew := queueWeight_newRoutes_lt platforms cur (maxDegree platforms)
            (outEdges_length_le platforms) hmax'
          have hexp := queueWeight_perm (maxDegree platforms) _ _
            (contents_expand Q platforms cur q')
          have happ : queueWeight (maxDegree platforms)
              (newRoutes platforms cur ++ Q.contents q') =
              queueWeight (maxDegree platforms) (newRoutes platforms cur) +
                queueWeight (maxDegree platforms) (Q.contents q') := by
            simp [queueWeight]
          omega

/-- More budget does not change a result once the loop has returned. -/
theorem searchLoop_fuel_mono (Q : PriorityQueue (Route T) routeComp)
    (platforms : PlatformArr T) :
    ∀ (fuel : Nat) (q : Q.State) (r : Route T),
      searchLoop Q platforms fuel q = some r →
        ∀ fuel', fuel ≤ fuel' → searchLoop Q platforms fuel' q = some r := by
  intro fuel
  induction fuel with
  | zero => intro q r h; simp [searchLoop] at h
  | succ fuel ih =>
    intro q r h fuel' hle
    obtain ⟨k, rfl⟩ : ∃ k, fuel' = k + 1 := ⟨fuel' - 1, by omega⟩
    rw [searchLoop] at h ⊢
    split
    · rename_i hpop; simpa [hpop] using h
    · rename_i cur q' hpop
      simp only [hpop] at h
      by_cases hall : allLevelVisitedInRoute cur = true
      · simpa [hall] using h
      · have hall' : allLevelVisitedInRoute cur = false := by simpa using hall
        by_cases hmax : atMaxPathLength cur = true
        · simp only [hall', hmax, if_true] at h ⊢
          exact ih _ _ h _ (by omega)
        · have hmax' : atMaxPathLength cur = false := by simpa using hmax
          simp only [hall', hmax'] at h ⊢
          exact ih _ _ h _ (by omega)

/-! ### Prefixes of accepted walks -/

omit [LT T] [DecidableRel (fun a b : T => a < b)] [Add T] [Zero T] in
theorem tooManySameLevels_append (p l : List Nat) (t t' : T)
    (hpos : ∀ y ∈ p ++ l, 1 ≤ y) (hlen : (p ++ l).length ≤ 255)
    (h : tooManySameLevels (⟨p, t⟩ : Route T) = true) :
    tooManySameLevels (⟨p ++ l, t'⟩ : Route T) = true := by
  induction l generalizing p t with
  | nil => simpa [tooManySameLevels] using h
  | cons x l ih =>
    have hx : 1 ≤ x := hpos x (by simp)
    have hp : ∀ y ∈ p, 1 ≤ y := fun y hy => hpos y (by simp [hy])
    have hl : p.length < 255 := by
      simp only [List.length_append, List.length_cons] at hlen; omega
    have hstep := tooManySameLevels_snoc p x t t hp hx hl h
    have := ih (p ++ [x]) t (by simpa using hpos) (by simpa using hlen) hstep
    simpa using this

omit [LT T] [DecidableRel (fun a b : T => a < b)] in
/-- Every prefix of a walk that passes the revisit filter passes it. -/
theorem tooManySameLevels_take (s : Nat) (es : List (RingLevel T)) (k : Nat)
    (hpos : ∀ y ∈ walkPath s es, 1 ≤ y) (hlen : (walkPath s es).length ≤ 255)
    (h : tooManySameLevels (walkRoute s es) = false) :
    tooManySameLevels (walkRoute s (es.take k)) = false := by
  by_contra hk
  have hk' : tooManySameLevels (walkRoute s (es.take k)) = true := by simpa using hk
  have hsplit : walkPath s es =
      walkPath s (es.take k) ++ (es.drop k).map (fun e => e.destinationLevel) := by
    simp only [walkPath, List.cons_append, ← List.map_append, List.take_append_drop]
  have := tooManySameLevels_append (walkPath s (es.take k))
    ((es.drop k).map (fun e => e.destinationLevel)) (walkTime (es.take k)) (walkTime es)
    (by rw [← hsplit]; exact hpos) (by rw [← hsplit]; exact hlen) hk'
  rw [← hsplit] at this
  rw [walkRoute] at h
  rw [h] at this
  exact Bool.false_ne_true this

omit [LT T] [DecidableRel (fun a b : T => a < b)] [Add T] [Zero T] in
theorem not_allLevelVisited_single (s : Nat) (t : T) :
    allLevelVisitedInRoute (⟨[s], t⟩ : Route T) = false := by
  by_cases hs : 1 ≤ s
  · by_contra h
    have h' : allLevelVisitedInRoute (⟨[s], t⟩ : Route T) = true := by simpa using h
    rw [allLevelVisitedInRoute_iff _ (by simpa using hs)] at h'
    have h1 := h' 1 (by decide) (by decide)
    have h2 := h' 2 (by decide) (by decide)
    simp only [List.mem_singleton] at h1 h2
    omega
  · have : s = 0 := by omega
    subst this
    rfl

/-! ### What the search returns -/

/-- The result of the search is the sentinel or the route of a candidate walk. -/
theorem search_result_structure (Q : PriorityQueue (Route T) routeComp)
    (platforms : PlatformArr T) (s : Nat) (hG : GraphOK platforms)
    (hs : 1 ≤ s ∧ s ≤ NUM_LEVELS) (fuel : Nat) (R : Route T)
    (h : findFastestRouteFuel Q fuel (Route.ofStart s) platforms = some R) :
    R = Route.new ∨ ∃ es, IsCandidate platforms s es ∧ R = walkRoute s es := by
  refine searchLoop_rule Q platforms
    (fun l => ∀ r ∈ l, ∃ es, IsWalk platforms s es ∧ r = walkRoute s es ∧
      r.routePath.length ≤ MAX_PLATFORMS_IN_ROUTE ∧
      (es ≠ [] → tooManySameLevels r = false))
    (fun R => R = Route.new ∨ ∃ es, IsCandidate platforms s es ∧ R = walkRoute s es)
    ?_ ?_ ?_ ?_ ?_ fuel _ R ?_ h
  · intro l l' hp hl r hr
    exact hl r (hp.mem_iff.2 hr)
  · intro _; exact Or.inl rfl
  · intro cur rest hinv _ hall
    obtain ⟨es, hw, rfl, hlen, hfil⟩ := hinv _ (List.mem_cons_self _ _)
    right
    have hrange := walkPath_range platforms hG s hs es hw
    refine ⟨es, ⟨hw, ?_, hlen, ?_⟩, rfl⟩
    · exact (allLevelVisitedInRoute_iff _ (fun x hx => (hrange x hx).1)).1 hall
    · apply hfil
      rintro rfl
      have := not_allLevelVisited_single s (walkTime ([] : List (RingLevel T)))
      simp only [walkRoute, walkPath, List.map_nil] at hall
      rw [hall] at this
      exact Bool.false_ne_true this.symm
  · intro cur rest hinv _ _ r hr
    exact hinv r (List.mem_cons_of_mem _ hr)
  · intro cur rest hinv _ hmax r hr
    rcases List.mem_append.1 hr with hr | hr
    · obtain ⟨es, hw, rfl, hlen, _⟩ := hinv _ (List.mem_cons_self _ _)
      simp only [newRoutes, List.mem_filter, List.mem_map] at hr
      obtain ⟨⟨e, he, rfl⟩, hpass⟩ := hr
      refine ⟨es ++ [e], (isWalk_append platforms s es e).2 ⟨hw, he⟩,
        extend_walkRoute s es e, ?_, fun _ => by simpa using hpass⟩
      have hlt : (walkRoute s es).routePath.length < MAX_PLATFORMS_IN_ROUTE := by
        simpa [atMaxPathLength] using hmax
      rw [extend_walkRoute]
      simp only [walkRoute, walkPath_length, List.length_append, List.length_singleton] at hlt ⊢
      omega
    · exact hinv r (List.mem_cons_of_mem _ hr)
  · intro r hr
    have hr' := (Q.contents_push Q.empty (Route.ofStart s)).mem_iff.1 hr
    rw [Q.contents_empty] at hr'
    simp only [List.mem_singleton] at hr'
    subst hr'
    refine ⟨[], trivial, rfl, by simp [Route.ofStart, MAX_PLATFORMS_IN_ROUTE], fun h => absurd rfl h⟩

/-- While a candidate walk exists the search does not return the sentinel: it
returns a covering route that is a prefix of the candidate or that the
comparator does not place before some prefix of the candidate. -/
theorem search_result_of_candidate (Q : PriorityQueue (Route T) routeComp)
    (platforms : PlatformArr T) (s : Nat) (hG : GraphOK platforms)
    (hs : 1 ≤ s ∧ s ≤ NUM_LEVELS) (fuel : Nat) (R : Route T)
    (h : findFastestRouteFuel Q fuel (Route.ofStart s) platforms = some R)
    (es : List (RingLevel T)) (hc : IsCandidate platforms s es) :
    allLevelVisitedInRoute R = true ∧
      ∃ k, k ≤ es.length ∧
        (R = walkRoute s (es.take k) ∨ routeComp R (walkRoute s (es.take k)) = false) := by
  obtain ⟨hw, hcover, hlen, hpass⟩ := hc
  have hrange := walkPath_range platforms hG s hs es hw
  have hfull : allLevelVisitedInRoute (walkRoute s es) = true :=
    (allLevelVisitedInRoute_iff _ (fun x hx => (hrange x hx).1)).2 hcover
  have hlen' : es.length + 1 ≤ MAX_PLATFORMS_IN_ROUTE := by
    rw [walkPath_length] at hlen; exact hlen
  refine searchLoop_rule Q platforms
    (fun l => ∃ k, k ≤ es.length ∧ walkRoute s (es.take k) ∈ l)
    (fun R => allLevelVisitedInRoute R = true ∧
      ∃ k, k ≤ es.length ∧
        (R = walkRoute s (es.take k) ∨ routeComp R (walkRoute s (es.take k)) = false))
    ?_ ?_ ?_ ?_ ?_ fuel _ R ?_ h
  · rintro l l' hp ⟨k, hk, hm⟩
    exact ⟨k, hk, hp.mem_iff.1 hm⟩
  · rintro ⟨k, _, hm⟩; simp at hm
  · rintro cur rest ⟨k, hk, hm⟩ htop hall
    refine ⟨hall, k, hk, ?_⟩
    rcases List.mem_cons.1 hm with hm | hm
    · exact Or.inl hm.symm
    · exact Or.inr (htop _ hm)
  · rintro cur rest ⟨k, hk, hm⟩ hall hmax
    rcases List.mem_cons.1 hm with hm | hm
    · exfalso
      subst hm
      have hge : MAX_PLATFORMS_IN_ROUTE ≤ (walkRoute s (es.take k)).routePath.length := by
        simpa [atMaxPathLength] using hmax
      simp only [walkRoute, walkPath_length, List.length_take] at hge
      have hkeq : es.length ≤ k := by
        have := Nat.min_le_left k es.length
        omega
      rw [List.take_of_length_le hkeq, hfull] at hall
      exact Bool.false_ne_true hall.symm
    · exact ⟨k, hk, hm⟩
  · rintro cur rest ⟨k, hk, hm⟩ hall hmax
    rcases List.mem_cons.1 hm with hm | hm
    · subst hm
      have hklt : k < es.length := by
        by_contra hge
        rw [List.take_of_length_le (by omega), hfull] at hall
        exact Bool.false_ne_true hall.symm
      refine ⟨k + 1, hklt, List.mem_append_left _ ?_⟩
      have htake : es.take (k + 1) = es.take k ++ [es[k]] := by
        rw [List.take_succ, List.getElem?_eq_getElem hklt]; rfl
      have hwk := isWalk_take platforms s es (k + 1) hw
      rw [htake, isWalk_append] at hwk
      simp only [newRoutes, List.mem_filter, List.mem_map]
      refine ⟨⟨es[k], hwk.2, ?_⟩, ?_⟩
      · rw [extend_walkRoute, htake]
      · have := tooManySameLevels_take s es (k + 1) (fun y hy => (hrange y hy).1)
          (le_trans hlen (by decide)) hpass
        simpa using this
    · exact ⟨k, hk, List.mem_append_right _ hm⟩
  · refine ⟨0, Nat.zero_le _, ?_⟩
    refine (Q.contents_push Q.empty (Route.ofStart s)).mem_iff.2 ?_
    simp [ofStart_eq_walkRoute]

/-- The search returns within the budget `searchFuel` and with any larger one. -/
theorem search_returns (Q : PriorityQueue (Route T) routeComp)
    (platforms : PlatformArr T) (startRoute : Route T) (fuel : Nat)
    (hfuel : searchFuel platforms ≤ fuel) :
    ∃ R, findFastestRouteFuel Q fuel startRoute platforms = some R ∧
      findFastestRoute Q startRoute platforms = some R := by
  have hstart : queueWeight (maxDegree platforms)
      (Q.contents (Q.push Q.empty startRoute)) < searchFuel platforms := by
    rw [queueWeight_perm _ _ _ (Q.contents_push Q.empty startRoute), Q.contents_empty]
    simp only [queueWeight, List.map_cons, List.map_nil, List.sum_cons, List.sum_nil,
      Nat.add_zero, routeWeight, searchFuel]
    exact Nat.lt_succ_of_le (Nat.pow_le_pow_right (Nat.succ_pos _) (Nat.sub_le _ _))
  obtain ⟨R, hR⟩ := searchLoop_terminates Q platforms _ _ hstart
  exact ⟨R, searchLoop_fuel_mono Q platforms _ _ R hR fuel hfuel, hR⟩

end Search

/-! ## Walks in the index form, times along walks, edge order -/

section WalkFacts

variable {T : Type}

/-- Edge `i` of a walk leaves the `i`-th node of its path and ends in the next one. -/
theorem isWalk_index (platforms : PlatformArr T) (s : Nat) (es : List (RingLevel T))
    (h : IsWalk platforms s es) :
    ∀ i (hi : i < es.length),
      es[i] ∈ outEdges platforms ((walkPath s es).getD i 0) ∧
        es[i].destinationLevel = (walkPath s es).getD (i + 1) 0 := by
  induction es generalizing s with
  | nil => intro i hi; simp at hi
  | cons a es ih =>
    intro i hi
    cases i with
    | zero =>
      refine ⟨by simpa [walkPath] using h.1, ?_⟩
      cases es <;> simp [walkPath]
    | succ i =>
      have hi' : i < es.length := by simpa using hi
      have := ih a.destinationLevel h.2 i hi'
      simpa [walkPath] using this

theorem isWalk_mem_platform (platforms : PlatformArr T) (s : Nat) (es : List (RingLevel T))
    (h : IsWalk platforms s es) : ∀ e ∈ es, ∃ p ∈ platforms, e ∈ p.connectedLevels := by
  induction es generalizing s with
  | nil => intro e he; simp at he
  | cons a es ih =>
    intro e he
    rcases List.mem_cons.1 he with rfl | he
    · exact mem_outEdges platforms s _ h.1
    · exact ih _ h.2 e he

theorem foldl_time_le [LinearOrder T] [Add T] [Zero T]
    (hadd : ∀ a t : T, 0 ≤ t → a ≤ a + t)
    (l : List (RingLevel T)) (hl : ∀ e ∈ l, (0 : T) ≤ e.levelTime) (a : T) :
    a ≤ l.foldl (fun t e => t + e.levelTime) a := by
  induction l generalizing a with
  | nil => exact le_refl _
  | cons e l ih =>
    rw [List.foldl_cons]
    exact le_trans (hadd a _ (hl e (List.mem_cons_self _ _)))
      (ih (fun x hx => hl x (List.mem_cons_of_mem _ hx)) _)

/-- With non-negative edge times a prefix of a walk takes no longer than the walk. -/
theorem walkTime_take_le [LinearOrder T] [Add T] [Zero T]
    (hadd : ∀ a t : T, 0 ≤ t → a ≤ a + t)
    (es : List (RingLevel T)) (hes : ∀ e ∈ es, (0 : T) ≤ e.levelTime) (k : Nat) :
    walkTime (es.take k) ≤ walkTime es := by
  have hsplit : walkTime es =
      (es.drop k).foldl (fun t e => t + e.levelTime) (walkTime (es.take k)) := by
    rw [walkTime, walkTime, ← List.foldl_append, List.take_append_drop]
  rw [hsplit]
  exact foldl_time_le hadd _ (fun e he => hes e (List.mem_of_mem_drop he)) _

theorem outEdges_perm (g g' : PlatformArr T)
    (hperm : List.Forall₂ (fun p p' => p.connectedLevels.Perm p'.connectedLevels) g g')
    (n : Nat) : (outEdges g n).Perm (outEdges g' n) := by
  have key : ∀ i : Nat,
      (match g[i]? with | some p => p.connectedLevels | none => []).Perm
        (match g'[i]? with | some p => p.connectedLevels | none => []) := by
    intro i
    induction hperm generalizing i with
    | nil => simp
    | cons hab _ ih =>
      cases i with
      | zero => simpa using hab
      | succ i => simpa using ih i
  unfold outEdges readCell
  by_cases h0 : 0 ≤ cellIndex n
  · simpa only [h0, if_true] using key (cellIndex n).toNat
  · simp only [h0, if_false]
    exact List.Perm.refl _

theorem isWalk_perm (g g' : PlatformArr T)
    (hperm : List.Forall₂ (fun p p' => p.connectedLevels.Perm p'.connectedLevels) g g')
    (s : Nat) (es : List (RingLevel T)) : IsWalk g s es ↔ IsWalk g' s es := by
  induction es generalizing s with
  | nil => simp [IsWalk]
  | cons a es ih =>
    simp only [IsWalk, ih, (outEdges_perm g g' hperm s).mem_iff]

/-- The candidate walks do not depend on the order in which a node lists its edges. -/
theorem isCandidate_perm (g g' : PlatformArr T)
    (hperm : List.Forall₂ (fun p p' => p.connectedLevels.Perm p'.connectedLevels) g g')
    (s : Nat) (es : List (RingLevel T)) [Add T] [Zero T] :
    IsCandidate g s es ↔ IsCandidate g' s es := by
  simp only [IsCandidate, isWalk_perm g g' hperm]

theorem mem_connectedLevels_perm (g g' : PlatformArr T)
    (hperm : List.Forall₂ (fun p p' => p.connectedLevels.Perm p'.connectedLevels) g g') :
    ∀ p' ∈ g', ∀ e ∈ p'.connectedLevels, ∃ p ∈ g, e ∈ p.connectedLevels := by
  induction hperm with
  | nil => intro p' hp'; simp at hp'
  | cons hab _ ih =>
    intro p' hp' e he
    rcases List.mem_cons.1 hp' with rfl | hp'
    · exact ⟨_, List.mem_cons_self _ _, hab.mem_iff.2 he⟩
    · obtain ⟨p, hp, hpe⟩ := ih p' hp' e he
      exact ⟨p, List.mem_cons_of_mem _ hp, hpe⟩

theorem graphOK_perm (g g' : PlatformArr T)
    (hperm : List.Forall₂ (fun p p' => p.connectedLevels.Perm p'.connectedLevels) g g')
    (hG : GraphOK g) : GraphOK g' := by
  refine ⟨hperm.length_eq ▸ hG.1, ?_⟩
  intro p' hp' e he
  obtain ⟨p, hp, hpe⟩ := mem_connectedLevels_perm g g' hperm p' hp' e he
  exact hG.2 p hp e hpe

end WalkFacts

/-! ## Properties of the search and of the revisit filter -/

section Properties

variable {T : Type}

/-- C1: on a graph of 13 nodes with destinations in `1..13` and a start `s` in
`1..13`, a route with a non-empty path returned by `findFastestRoute` on `[s]`
has `s` as first element and contains every identifier `1..13`. -/
theorem findFastestRoute_starts_and_covers
    [LT T] [DecidableRel (fun a b : T => a < b)] [Add T] [Zero T]
    (Q : PriorityQueue (Route T) routeComp) (platforms : PlatformArr T) (s : Nat)
    (R : Route T) (hG : GraphOK platforms) (hs : 1 ≤ s ∧ s ≤ NUM_LEVELS)
    (hR : findFastestRoute Q (Route.ofStart s) platforms = some R)
    (hne : R.routePath ≠ []) :
    R.routePath.head? = some s ∧ ∀ i, 1 ≤ i → i ≤ NUM_LEVELS → i ∈ R.routePath := by
  rcases search_result_structure Q platforms s hG hs _ R hR with rfl | ⟨es, hc, rfl⟩
  · exact absurd rfl hne
  · exact ⟨rfl, hc.2.1⟩

set_option maxRecDepth 100000 in
theorem findFastestRoute_starts_and_covers_witness :
    GraphOK chainGraph ∧
      findFastestRoute (listQueue Nat) (Route.ofStart 1) chainGraph = some chainRoute ∧
      chainRoute.routePath.head? = some 1 ∧
      ∀ i, 1 ≤ i → i ≤ NUM_LEVELS → i ∈ chainRoute.routePath :=
  ⟨by decide, by decide,
    findFastestRoute_starts_and_covers (listQueue Nat) chainGraph 1 chainRoute
      (by decide) (by decide) (by decide) (by decide)⟩

/-- C2: minimum time. With non-negative edge times, a non-empty route returned
by `findFastestRoute` on `[s]` takes no longer than any walk from `s` that
follows edges, contains all identifiers `1..13`, has at most 15 nodes and
passes `tooManySameLevels`. Times are compared in a linear order in which
adding a non-negative time does not decrease a time (`hadd`). -/
theorem findFastestRoute_minimal_time [LinearOrder T] [Add T] [Zero T]
    (Q : PriorityQueue (Route T) routeComp) (platforms : PlatformArr T) (s : Nat)
    (R : Route T) (es : List (RingLevel T))
    (hG : GraphOK platforms) (hs : 1 ≤ s ∧ s ≤ NUM_LEVELS)
    (hadd : ∀ a t : T, 0 ≤ t → a ≤ a + t)
    (hnonneg : ∀ p ∈ platforms, ∀ e ∈ p.connectedLevels, (0 : T) ≤ e.levelTime)
    (hR : findFastestRoute Q (Route.ofStart s) platforms = some R)
    (hne : R.routePath ≠ [])
    (hc : IsCandidate platforms s es) :
    R.routeTime ≤ walkTime es := by
  obtain ⟨_, k, _, hk⟩ := search_result_of_candidate Q platforms s hG hs _ R hR es hc
  have hes : ∀ e ∈ es, (0 : T) ≤ e.levelTime := by
    intro e he
    obtain ⟨p, hp, hpe⟩ := isWalk_mem_platform platforms s es hc.1 e he
    exact hnonneg p hp e hpe
  have htake := walkTime_take_le hadd es hes k
  rcases hk with rfl | hk
  · exact htake
  · have hle : R.routeTime ≤ walkTime (es.take k) := by
      simpa [routeComp, walkRoute] using hk
    exact le_trans hle htake

set_option maxRecDepth 100000 in
theorem findFastestRoute_minimal_time_witness :
    IsCandidate chainGraph 1 chainEdges ∧
      findFastestRoute (listQueue Nat) (Route.ofStart 1) chainGraph = some chainRoute ∧
      chainRoute.routeTime ≤ walkTime chainEdges :=
  ⟨by decide, by decide,
    findFastestRoute_minimal_time (listQueue Nat) chainGraph 1 chainRoute chainEdges
      (by decide) (by decide) (fun a t _ => Nat.le_add_right a t)
      (fun _ _ _ _ => Nat.zero_le _) (by decide) (by decide) (by decide)⟩

/-- C3: `findFastestRoute` on `[s]` returns the sentinel (empty path, time 0)
exactly when no walk from `s` follows edges, contains all identifiers `1..13`,
has at most 15 nodes and passes `tooManySameLevels`. -/
theorem findFastestRoute_sentinel_iff
    [LT T] [DecidableRel (fun a b : T => a < b)] [Add T] [Zero T]
    (Q : PriorityQueue (Route T) routeComp) (platforms : PlatformArr T) (s : Nat)
    (hG : GraphOK platforms) (hs : 1 ≤ s ∧ s ≤ NUM_LEVELS) :
    findFastestRoute Q (Route.ofStart s) platforms =
        some { routePath := [], routeTime := 0 } ↔
      ¬ ∃ es, IsCandidate platforms s es := by
  constructor
  · rintro h ⟨es, hc⟩
    have := (search_result_of_candidate Q platforms s hG hs _ _ h es hc).1
    exact Bool.false_ne_true this
  · intro hno
    obtain ⟨R, _, hR⟩ := search_returns Q platforms (Route.ofStart s) _ (le_refl _)
    rcases search_result_structure Q platforms s hG hs _ R hR with rfl | ⟨es, hc, _⟩
    · exact hR
    · exact absurd ⟨es, hc⟩ hno

set_option maxRecDepth 100000 in
theorem findFastestRoute_sentinel_iff_witness :
    GraphOK isolatedGraph ∧
      (findFastestRoute (listQueue Nat) (Route.ofStart 1) isolatedGraph =
          some { routePath := [], routeTime := 0 } ↔
        ¬ ∃ es, IsCandidate isolatedGraph 1 es) :=
  ⟨by decide,
    findFastestRoute_sentinel_iff (listQueue Nat) isolatedGraph 1 (by decide) (by decide)⟩

/-- C4: `findFastestRoute` on `[s]` returns a route whose path has at most 15
identifiers. -/
theorem findFastestRoute_length_le
    [LT T] [DecidableRel (fun a b : T => a < b)] [Add T] [Zero T]
    (Q : PriorityQueue (Route T) routeComp) (platforms : PlatformArr T) (s : Nat)
    (hG : GraphOK platforms) (hs : 1 ≤ s ∧ s ≤ NUM_LEVELS) :
    ∃ R, findFastestRoute Q (Route.ofStart s) platforms = some R ∧
      R.routePath.length ≤ MAX_PLATFORMS_IN_ROUTE := by
  obtain ⟨R, _, hR⟩ := search_returns Q platforms (Route.ofStart s) _ (le_refl _)
  refine ⟨R, hR, ?_⟩
  rcases search_result_structure Q platforms s hG hs _ R hR with rfl | ⟨es, hc, rfl⟩
  · simp [Route.new]
  · exact hc.2.2.1

set_option maxRecDepth 100000 in
theorem findFastestRoute_length_le_witness :
    GraphOK chainGraph ∧
      ∃ R, findFastestRoute (listQueue Nat) (Route.ofStart 1) chainGraph = some R ∧
        R.routePath.length ≤ MAX_PLATFORMS_IN_ROUTE :=
  ⟨by decide, findFastestRoute_length_le (listQueue Nat) chainGraph 1 (by decide) (by decide)⟩

/-- C5, refuted as stated: the path of 256 copies of identifier 1 has its
identifiers in `1..13` and identifier 1 occurs more than three times, yet the
8-bit counter wraps to 0 and `tooManySameLevels` returns false. -/
theorem tooManySameLevels_counter_wraps :
    (∀ x ∈ List.replicate 256 1, 1 ≤ x ∧ x ≤ NUM_LEVELS) ∧
      3 ≤ (List.replicate 256 1).count 1 ∧
      tooManySameLevels ({ routePath := List.replicate 256 1, routeTime := 0 } : Route Nat) =
        false := by
  refine ⟨?_, ?_, ?_⟩
  · intro x hx
    rw [List.eq_of_mem_replicate hx]
    decide
  · rw [List.count_replicate_self]
    decide
  · have hpos : ∀ x ∈ ({ routePath := List.replicate 256 1, routeTime := 0 } :
        Route Nat).routePath, 1 ≤ x := by
      intro x hx
      rw [List.eq_of_mem_replicate hx]
    have hcount : ∀ i, (List.replicate 256 1).count (i + 1) % 256 = 0 := by
      intro i
      rw [List.count_replicate]
      split <;> rfl
    rw [Bool.eq_false_iff]
    intro h'
    rw [tooManySameLevels_iff_count _ hpos] at h'
    simp only [hcount] at h'
    rcases h' with ⟨i, _, h3⟩ | h2
    · omega
    · simp at h2

/-- C5, amended: for a path of at most 255 identifiers, all in `1..13`, in
which some identifier occurs three or more times, `tooManySameLevels` returns
true. No 8-bit counter wraps on such a path. -/
theorem tooManySameLevels_of_triple (r : Route T) (x : Nat)
    (hrange : ∀ y ∈ r.routePath, 1 ≤ y ∧ y ≤ NUM_LEVELS)
    (hlen : r.routePath.length ≤ 255) (h3 : 3 ≤ r.routePath.count x) :
    tooManySameLevels r = true := by
  apply tooManySameLevels_of_count_mod r x hrange
  have := List.count_le_length x r.routePath
  rw [Nat.mod_eq_of_lt (by omega)]
  exact h3

set_option maxRecDepth 100000 in
theorem tooManySameLevels_of_triple_witness :
    3 ≤ ([4, 7, 4, 4] : List Nat).count 4 ∧
      tooManySameLevels ({ routePath := [4, 7, 4, 4], routeTime := 0 } : Route Nat) = true :=
  ⟨by decide,
    tooManySameLevels_of_triple ({ routePath := [4, 7, 4, 4], routeTime := 0 } : Route Nat) 4
      (by decide) (by decide) (by decide)⟩

/-- C6: for a path with identifiers in `1..13` in which no identifier occurs
three or more times, `tooManySameLevels` returns true exactly when more than
two distinct identifiers occur exactly twice; with at most two such
identifiers it returns false. -/
theorem tooManySameLevels_iff_doubles (r : Route T)
    (hrange : ∀ y ∈ r.routePath, 1 ≤ y ∧ y ≤ NUM_LEVELS)
    (hno3 : ∀ y ∈ r.routePath, r.routePath.count y < 3) :
    (tooManySameLevels r = true ↔
        2 < (r.routePath.toFinset.filter (fun y => r.routePath.count y = 2)).card) ∧
      ((r.routePath.toFinset.filter (fun y => r.routePath.count y = 2)).card ≤ 2 →
        tooManySameLevels r = false) := by
  have hlt : ∀ y, r.routePath.count y < 3 := by
    intro y
    by_cases hy : y ∈ r.routePath
    · exact hno3 y hy
    · rw [List.count_eq_zero.2 hy]; decide
  have hmod : ∀ y, r.routePath.count y % 256 = r.routePath.count y := fun y =>
    Nat.mod_eq_of_lt (lt_trans (hlt y) (by decide))
  have hiff : tooManySameLevels r = true ↔
      2 < (r.routePath.toFinset.filter (fun y => r.routePath.count y = 2)).card := by
    rw [tooManySameLevels_iff_count r (fun y hy => (hrange y hy).1)]
    simp only [hmod]
    rw [countP_range_eq_card (fun i => r.routePath.count (i + 1)) NUM_LEVELS,
      doubles_card_eq r.routePath hrange]
    constructor
    · rintro (⟨i, _, h3⟩ | h)
      · exact absurd (hlt (i + 1)) (by omega)
      · exact h
    · exact Or.inr
  refine ⟨hiff, fun hle => ?_⟩
  by_contra hne
  have : tooManySameLevels r = true := by simpa using hne
  exact absurd (hiff.1 this) (by omega)

set_option maxRecDepth 100000 in
theorem tooManySameLevels_iff_doubles_witness :
    (tooManySameLevels ({ routePath := [1, 2, 3, 1, 2, 3], routeTime := 0 } : Route Nat) = true ↔
        2 < (([1, 2, 3, 1, 2, 3] : List Nat).toFinset.filter
          (fun y => [1, 2, 3, 1, 2, 3].count y = 2)).card) ∧
      ((([1, 2, 3, 1, 2, 3] : List Nat).toFinset.filter
          (fun y => [1, 2, 3, 1, 2, 3].count y = 2)).card ≤ 2 →
        tooManySameLevels ({ routePath := [1, 2, 3, 1, 2, 3], routeTime := 0 } : Route Nat) =
          false) :=
  tooManySameLevels_iff_doubles ({ routePath := [1, 2, 3, 1, 2, 3], routeTime := 0 } : Route Nat)
    (by decide) (by decide)

/-- C7: a non-empty route `R` returned by `findFastestRoute` on `[s]` is a walk
of the graph with the right time: there are edges `e_1 .. e_k`, with `k` the
length of the path minus 1, such that `e_i` is an outbound edge of the `i`-th
path element and ends in the next one, and the time of `R` is
`0 + time(e_1) + ... + time(e_k)` added in path order. -/
theorem findFastestRoute_is_walk
    [LT T] [DecidableRel (fun a b : T => a < b)] [Add T] [Zero T]
    (Q : PriorityQueue (Route T) routeComp) (platforms : PlatformArr T) (s : Nat)
    (R : Route T) (hG : GraphOK platforms) (hs : 1 ≤ s ∧ s ≤ NUM_LEVELS)
    (hR : findFastestRoute Q (Route.ofStart s) platforms = some R)
    (hne : R.routePath ≠ []) :
    ∃ es : List (RingLevel T),
      es.length = R.routePath.length - 1 ∧
      (∀ i (hi : i < es.length),
        es[i] ∈ outEdges platforms (R.routePath.getD i 0) ∧
          es[i].destinationLevel = R.routePath.getD (i + 1) 0) ∧
      R.routeTime = es.foldl (fun t e => t + e.levelTime) 0 := by
  rcases search_result_structure Q platforms s hG hs _ R hR with rfl | ⟨es, hc, rfl⟩
  · exact absurd rfl hne
  · refine ⟨es, ?_, isWalk_index platforms s es hc.1, rfl⟩
    simp [walkRoute, walkPath]

set_option maxRecDepth 100000 in
theorem findFastestRoute_is_walk_witness :
    GraphOK chainGraph ∧
      findFastestRoute (listQueue Nat) (Route.ofStart 1) chainGraph = some chainRoute ∧
      ∃ es : List (RingLevel Nat),
        es.length = chainRoute.routePath.length - 1 ∧
        (∀ i (hi : i < es.length),
          es[i] ∈ outEdges chainGraph (chainRoute.routePath.getD i 0) ∧
            es[i].destinationLevel = chainRoute.routePath.getD (i + 1) 0) ∧
        chainRoute.routeTime = es.foldl (fun t e => t + e.levelTime) 0 :=
  ⟨by decide, by decide,
    findFastestRoute_is_walk (listQueue Nat) chainGraph 1 chainRoute
      (by decide) (by decide) (by decide) (by decide)⟩

/-- C8: the loop of `findFastestRoute` on `[s]` terminates, whatever the edge
times: with the step budget `searchFuel`, and with any larger one, the loop
has returned a route or found the queue empty, and the result is the same. -/
theorem findFastestRoute_terminates
    [LT T] [DecidableRel (fun a b : T => a < b)] [Add T] [Zero T]
    (Q : PriorityQueue (Route T) routeComp) (platforms : PlatformArr T) (s : Nat)
    (fuel : Nat) (_hG : GraphOK platforms) (_hs : 1 ≤ s ∧ s ≤ NUM_LEVELS)
    (hfuel : searchFuel platforms ≤ fuel) :
    ∃ R, findFastestRouteFuel Q fuel (Route.ofStart s) platforms = some R ∧
      findFastestRoute Q (Route.ofStart s) platforms = some R :=
  search_returns Q platforms (Route.ofStart s) fuel hfuel

set_option maxRecDepth 100000 in
theorem findFastestRoute_terminates_witness :
    GraphOK forkGraph ∧ searchFuel forkGraph ≤ 14348908 ∧
      ∃ R, findFastestRouteFuel (listQueue Nat) 14348908 (Route.ofStart 1) forkGraph = some R ∧
        findFastestRoute (listQueue Nat) (Route.ofStart 1) forkGraph = some R :=
  ⟨by decide, by decide,
    findFastestRoute_terminates (listQueue Nat) forkGraph 1 14348908
      (by decide) (by decide) (by decide)⟩

/-- C9: if some identifier `t` in `1..13` cannot be reached from `s` by
following edges of the graph, `findFastestRoute` on `[s]` returns the
empty-path sentinel. -/
theorem findFastestRoute_unreachable
    [LT T] [DecidableRel (fun a b : T => a < b)] [Add T] [Zero T]
    (Q : PriorityQueue (Route T) routeComp) (platforms : PlatformArr T) (s t : Nat)
    (hG : GraphOK platforms) (hs : 1 ≤ s ∧ s ≤ NUM_LEVELS)
    (ht : 1 ≤ t ∧ t ≤ NUM_LEVELS) (hunreach : ¬ Reachable platforms s t) :
    findFastestRoute Q (Route.ofStart s) platforms =
      some { routePath := [], routeTime := 0 } := by
  obtain ⟨R, _, hR⟩ := search_returns Q platforms (Route.ofStart s) _ (le_refl _)
  rcases search_result_structure Q platforms s hG hs _ R hR with rfl | ⟨es, hc, _⟩
  · exact hR
  · exact absurd ⟨es, hc.1, hc.2.1 t ht.1 ht.2⟩ hunreach

set_option maxRecDepth 100000 in
theorem findFastestRoute_unreachable_witness :
    GraphOK isolatedGraph ∧ ¬ Reachable isolatedGraph 1 2 ∧
      findFastestRoute (listQueue Nat) (Route.ofStart 1) isolatedGraph =
        some { routePath := [], routeTime := 0 } :=
  have hun : ¬ Reachable isolatedGraph 1 2 := by
    rintro ⟨es, hw, hmem⟩
    cases es with
    | nil => simp [walkPath] at hmem
    | cons e es =>
      have he : e ∈ outEdges isolatedGraph 1 := hw.1
      have hnil : outEdges isolatedGraph 1 = [] := by decide
      rw [hnil] at he
      exact absurd he (List.not_mem_nil _)
  ⟨by decide, hun,
    findFastestRoute_unreachable (listQueue Nat) isolatedGraph 1 2
      (by decide) (by decide) (by decide) hun⟩

/-- C10: the time of the result does not depend on tie-breaks. For two graphs
in which each node has the same edges in a different order, non-negative edge
times and any two priority queues, the results of `findFastestRoute` on `[s]`
are both the sentinel or both non-empty with equal time. Times are compared in
a linear order in which adding a non-negative time does not decrease a time. -/
theorem findFastestRoute_time_edge_order [LinearOrder T] [Add T] [Zero T]
    (Q Q' : PriorityQueue (Route T) routeComp) (g g' : PlatformArr T) (s : Nat)
    (hG : GraphOK g) (hs : 1 ≤ s ∧ s ≤ NUM_LEVELS)
    (hperm : List.Forall₂ (fun p p' => p.connectedLevels.Perm p'.connectedLevels) g g')
    (hadd : ∀ a t : T, 0 ≤ t → a ≤ a + t)
    (hnonneg : ∀ p ∈ g, ∀ e ∈ p.connectedLevels, (0 : T) ≤ e.levelTime) :
    ∃ R R', findFastestRoute Q (Route.ofStart s) g = some R ∧
      findFastestRoute Q' (Route.ofStart s) g' = some R' ∧
      ((R = { routePath := [], routeTime := 0 } ∧ R' = { routePath := [], routeTime := 0 }) ∨
        (R.routePath ≠ [] ∧ R'.routePath ≠ [] ∧ R.routeTime = R'.routeTime)) := by
  have hG' : GraphOK g' := graphOK_perm g g' hperm hG
  obtain ⟨R, _, hR⟩ := search_returns Q g (Route.ofStart s) _ (le_refl _)
  obtain ⟨R', _, hR'⟩ := search_returns Q' g' (Route.ofStart s) _ (le_refl _)
  refine ⟨R, R', hR, hR', ?_⟩
  have hle : ∀ (P : PriorityQueue (Route T) routeComp) (h : PlatformArr T) (X : Route T)
      (es : List (RingLevel T)), GraphOK h →
      findFastestRoute P (Route.ofStart s) h = some X → IsCandidate h s es →
      (∀ e ∈ es, (0 : T) ≤ e.levelTime) →
      X.routePath ≠ [] ∧ X.routeTime ≤ walkTime es := by
    intro P h X es hh hX hc hes
    obtain ⟨hall, k, _, hk⟩ := search_result_of_candidate P h s hh hs _ X hX es hc
    refine ⟨?_, ?_⟩
    · intro hnil
      have hfalse : allLevelVisitedInRoute X = false := by
        simp only [allLevelVisitedInRoute, hnil]; rfl
      rw [hall] at hfalse
      exact Bool.false_ne_true hfalse.symm
    · have htake := walkTime_take_le hadd es hes k
      rcases hk with rfl | hk
      · exact htake
      · have : X.routeTime ≤ walkTime (es.take k) := by
          simpa [routeComp, walkRoute] using hk
        exact le_trans this htake
  have hedges : ∀ es, IsWalk g s es → ∀ e ∈ es, (0 : T) ≤ e.levelTime := by
    intro es hw e he
    obtain ⟨p, hp, hpe⟩ := isWalk_mem_platform g s es hw e he
    exact hnonneg p hp e hpe
  rcases search_result_structure Q g s hG hs _ R hR with rfl | ⟨es, hc, rfl⟩
  · rcases search_result_structure Q' g' s hG' hs _ R' hR' with rfl | ⟨es', hc', rfl⟩
    · exact Or.inl ⟨rfl, rfl⟩
    · have hc2 := (isCandidate_perm g g' hperm s es').2 hc'
      have := (hle Q g Route.new es' hG hR hc2 (hedges es' hc2.1)).1
      exact absurd rfl this
  · have hcg' := (isCandidate_perm g g' hperm s es).1 hc
    have h1 := hle Q' g' R' es hG' hR' hcg' (hedges es hc.1)
    rcases search_result_structure Q' g' s hG' hs _ R' hR' with rfl | ⟨es', hc', rfl⟩
    · exact absurd rfl h1.1
    · have hc2 := (isCandidate_perm g g' hperm s es').2 hc'
      have h2 := hle Q g (walkRoute s es) es' hG hR hc2 (hedges es' hc2.1)
      exact Or.inr ⟨h2.1, h1.1, le_antisymm h2.2 h1.2⟩

set_option maxRecDepth 100000 in
theorem findFastestRoute_time_edge_order_witness :
    GraphOK forkGraph ∧
      List.Forall₂ (fun p p' => p.connectedLevels.Perm p'.connectedLevels)
        forkGraph forkGraphSwapped ∧
      ∃ R R', findFastestRoute (listQueue Nat) (Route.ofStart 1) forkGraph = some R ∧
        findFastestRoute (listQueue Nat) (Route.ofStart 1) forkGraphSwapped = some R' ∧
        ((R = { routePath := [], routeTime := 0 } ∧
            R' = { routePath := [], routeTime := 0 }) ∨
          (R.routePath ≠ [] ∧ R'.routePath ≠ [] ∧ R.routeTime = R'.routeTime)) :=
  ⟨by decide, by decide,
    findFastestRoute_time_edge_order (listQueue Nat) (listQueue Nat) forkGraph
      forkGraphSwapped 1 (by decide) (by decide) (by decide)
      (fun a t _ => Nat.le_add_right a t) (fun _ _ _ _ => Nat.zero_le _)⟩

end Properties

/-! ## Further facts about the constructor and the tests -/

section MoreFacts

variable {T : Type}

theorem foldl_copyStep (r : Route T) (acc : List Nat) (n : Nat)
    (hn : n ≤ r.routePath.length) :
    (List.range n).foldl copyStep (r, acc) = (r, acc ++ r.routePath.take n) := by
  induction n with
  | zero => simp
  | succ n ih =>
    have hlt : n < r.routePath.length := hn
    rw [List.range_succ, List.foldl_append, ih (Nat.le_of_lt hlt)]
    simp only [List.foldl_cons, List.foldl_nil, copyStep, List.getElem?_eq_getElem hlt]
    rw [List.take_succ, List.getElem?_eq_getElem hlt]
    simp

/-- The constructor call leaves its argument as it was and builds the route of
`Route.extend`. -/
theorem extendCall_eq [Add T] (r : Route T) (e : RingLevel T) :
    Route.extendCall r e = (r, Route.extend r e) := by
  simp only [Route.extendCall, foldl_copyStep r [] _ (le_refl _), List.take_length,
    List.nil_append, Route.extend, copyPath_eq]

/-- A path that contains every identifier of `1..13` has at least 13 elements. -/
theorem length_ge_of_cover (path : List Nat)
    (h : ∀ i, 1 ≤ i → i ≤ NUM_LEVELS → i ∈ path) : NUM_LEVELS ≤ path.length := by
  have hsub : Finset.Icc 1 NUM_LEVELS ⊆ path.toFinset := by
    intro i hi
    rw [Finset.mem_Icc] at hi
    exact List.mem_toFinset.2 (h i hi.1 hi.2)
  have hcard := Finset.card_le_card hsub
  rw [Nat.card_Icc] at hcard
  exact le_trans (by simpa using hcard) (List.toFinset_card_le path)

/-- The length of a path with identifiers in `1..13` is the sum of the
occurrence counts of the 13 identifiers. -/
theorem length_eq_sum_count (path : List Nat)
    (hrange : ∀ y ∈ path, 1 ≤ y ∧ y ≤ NUM_LEVELS) :
    path.length = ∑ i in Finset.range NUM_LEVELS, path.count (i + 1) := by
  induction path with
  | nil => simp
  | cons x xs ih =>
    have hx := hrange x (List.mem_cons_self _ _)
    have hxs : ∀ y ∈ xs, 1 ≤ y ∧ y ≤ NUM_LEVELS :=
      fun y hy => hrange y (List.mem_cons_of_mem _ hy)
    have hone : ∑ i in Finset.range NUM_LEVELS, (if x = i + 1 then 1 else 0) = 1 := by
      have hrw : ∀ i, (if x = i + 1 then 1 else 0) = (if i = x - 1 then 1 else 0) := by
        intro i
        by_cases hi : x = i + 1
        · have : i = x - 1 := by omega
          simp [hi]
        · have : ¬ i = x - 1 := by omega
          simp [hi, this]
      simp only [hrw]
      rw [Finset.sum_ite_eq']
      have : x - 1 ∈ Finset.range NUM_LEVELS := Finset.mem_range.2 (by omega)
      simp [this]
    have hcount : ∀ i, (x :: xs).count (i + 1) =
        xs.count (i + 1) + (if x = i + 1 then 1 else 0) := by
      intro i
      rw [List.count_cons]
      simp
    simp only [hcount, Finset.sum_add_distrib, hone, List.length_cons, ← ih hxs]

/-- On an accepted path of fewer than 256 identifiers in `1..13` no identifier
occurs more than twice and at most two cells of the counter array hold 2. -/
theorem accepted_counts (r : Route T)
    (hrange : ∀ y ∈ r.routePath, 1 ≤ y ∧ y ≤ NUM_LEVELS)
    (hlen : r.routePath.length < 256) (hacc : tooManySameLevels r = false) :
    (∀ y, r.routePath.count y ≤ 2) ∧
      ((Finset.range NUM_LEVELS).filter (fun i => r.routePath.count (i + 1) = 2)).card ≤ 2 := by
  have hmod : ∀ y, r.routePath.count y % 256 = r.routePath.count y := fun y =>
    Nat.mod_eq_of_lt (lt_of_le_of_lt (List.count_le_length _ _) hlen)
  have hnot : ¬ tooManySameLevels r = true := by rw [hacc]; exact Bool.false_ne_true
  rw [tooManySameLevels_iff_count r (fun y hy => (hrange y hy).1)] at hnot
  simp only [hmod, not_or, not_exists, not_and, not_le, not_lt] at hnot
  obtain ⟨h3, h2⟩ := hnot
  refine ⟨?_, ?_⟩
  · intro y
    by_cases hy : y ∈ r.routePath
    · obtain ⟨h1, h13⟩ := hrange y hy
      have := h3 (y - 1) (by omega)
      have hy1 : y - 1 + 1 = y := by omega
      rw [hy1] at this
      omega
    · rw [List.count_eq_zero.2 hy]; decide
  · rw [← countP_range_eq_card (fun i => r.routePath.count (i + 1)) NUM_LEVELS]
    exact h2

/-- An accepted path of fewer than 256 identifiers in `1..13` has at most 15 of them. -/
theorem accepted_length_le (r : Route T)
    (hrange : ∀ y ∈ r.routePath, 1 ≤ y ∧ y ≤ NUM_LEVELS)
    (hlen : r.routePath.length < 256) (hacc : tooManySameLevels r = false) :
    r.routePath.length ≤ MAX_PLATFORMS_IN_ROUTE := by
  obtain ⟨h2, hcard⟩ := accepted_counts r hrange hlen hacc
  rw [length_eq_sum_count r.routePath hrange]
  have hle : ∀ i ∈ Finset.range NUM_LEVELS, r.routePath.count (i + 1) ≤
      1 + (if r.routePath.count (i + 1) = 2 then 1 else 0) := by
    intro i _
    have := h2 (i + 1)
    split <;> omega
  refine le_trans (Finset.sum_le_sum hle) ?_
  rw [Finset.sum_add_distrib, ← Finset.card_filter]
  simp only [Finset.sum_const, Finset.card_range, smul_eq_mul, Nat.mul_one]
  have : NUM_LEVELS = 13 := rfl
  have : MAX_PLATFORMS_IN_ROUTE = 15 := rfl
  omega

end MoreFacts

/-! ## Facts about the loader -/

section Loader

variable {T : Type}

theorem stoi_of_le (digits : Nat) (h : digits ≤ INT_MAX) : stoi digits = some digits := by
  simp [stoi, h]

/-- A matched line whose source lies in `1..13` and whose destination fits an
`int` is stored, whatever the destination. -/
theorem parseLine_source_in_range (platforms : PlatformArr T) (l : EdgeLine T)
    (hlen : platforms.length = NUM_LEVELS)
    (hcur : 1 ≤ l.curPlatform ∧ l.curPlatform ≤ NUM_LEVELS)
    (hnext : l.nextPlatform ≤ INT_MAX) :
    ∃ p, platforms[l.curPlatform - 1]? = some p ∧
      parseLine platforms (some l) =
        LineOutcome.stored (platforms.set (l.curPlatform - 1)
          { platformLevel := l.curPlatform
            connectedLevels := p.connectedLevels ++
              [{ destinationLevel := l.nextPlatform % 256, levelTime := l.levelTime }] }) := by
  have h13 : NUM_LEVELS = 13 := rfl
  have hmax : INT_MAX = 2147483647 := rfl
  have hlt : l.curPlatform - 1 < platforms.length := by omega
  refine ⟨platforms[l.curPlatform - 1], List.getElem?_eq_getElem hlt, ?_⟩
  have hmod : l.curPlatform % 256 = l.curPlatform := Nat.mod_eq_of_lt (by omega)
  simp only [parseLine, stoi_of_le _ (show l.curPlatform ≤ INT_MAX by omega), stoi_of_le _ hnext,
    readCell_cellIndex platforms _ hcur.1, List.getElem?_eq_getElem hlt,
    writeCell_cellIndex platforms _ _ hcur.1, hmod]

theorem edgesFrom_cons_some (l : EdgeLine T) (rest : List (Option (EdgeLine T))) (i : Nat) :
    edgesFrom (some l :: rest) i =
      (if l.curPlatform = i then
        [{ destinationLevel := l.nextPlatform, levelTime := l.levelTime }] else []) ++
        edgesFrom rest i := by
  unfold edgesFrom
  by_cases h : l.curPlatform = i <;> simp [List.filterMap_cons, h]

theorem edgesFrom_cons_none (rest : List (Option (EdgeLine T))) (i : Nat) :
    edgesFrom (none :: rest) i = edgesFrom rest i := by
  simp [edgesFrom, List.filterMap_cons]

/-- The loader loop on lines with identifiers in `1..13`: every cell gains the
edges of the lines with its source, in file order. -/
theorem parseLines_edges (lines : List (Option (EdgeLine T))) :
    ∀ (acc : PlatformArr T), acc.length = NUM_LEVELS →
      (∀ l, some l ∈ lines →
        (1 ≤ l.curPlatform ∧ l.curPlatform ≤ NUM_LEVELS) ∧
          (1 ≤ l.nextPlatform ∧ l.nextPlatform ≤ NUM_LEVELS)) →
      ∃ res, parseLines acc lines = some res ∧ res.length = NUM_LEVELS ∧
        ∀ j, j < NUM_LEVELS →
          (res[j]?).map (fun p => p.connectedLevels) =
            (acc[j]?).map (fun p => p.connectedLevels ++ edgesFrom lines (j + 1)) := by
  induction lines with
  | nil =>
    intro acc hacc _
    refine ⟨acc, rfl, hacc, fun j _ => ?_⟩
    cases acc[j]? <;> simp [edgesFrom]
  | cons line rest ih =>
    intro acc hacc hrange
    have hrest : ∀ l, some l ∈ rest →
        (1 ≤ l.curPlatform ∧ l.curPlatform ≤ NUM_LEVELS) ∧
          (1 ≤ l.nextPlatform ∧ l.nextPlatform ≤ NUM_LEVELS) :=
      fun l hl => hrange l (List.mem_cons_of_mem _ hl)
    cases line with
    | none =>
      obtain ⟨res, hres, hlen, hcells⟩ := ih acc hacc hrest
      refine ⟨res, by simpa [parseLines, parseLine] using hres, hlen, fun j hj => ?_⟩
      rw [hcells j hj, edgesFrom_cons_none]
    | some l =>
      obtain ⟨hcur, hnext⟩ := hrange l (List.mem_cons_self _ _)
      have h13 : NUM_LEVELS = 13 := rfl
      have hmax : INT_MAX = 2147483647 := rfl
      obtain ⟨p, hp, hline⟩ := parseLine_source_in_range acc l hacc hcur (by omega)
      have hmod : l.nextPlatform % 256 = l.nextPlatform := Nat.mod_eq_of_lt (by omega)
      rw [hmod] at hline
      have hlen' : (acc.set (l.curPlatform - 1)
          { platformLevel := l.curPlatform
            connectedLevels := p.connectedLevels ++
              [{ destinationLevel := l.nextPlatform, levelTime := l.levelTime }] }).length =
          NUM_LEVELS := by
        rw [List.length_set]; exact hacc
      obtain ⟨res, hres, hlen, hcells⟩ := ih _ hlen' hrest
      refine ⟨res, by simpa [parseLines, hline] using hres, hlen, fun j hj => ?_⟩
      rw [hcells j hj, edgesFrom_cons_some, List.getElem?_set]
      by_cases hj' : l.curPlatform - 1 = j
      · have hlj : l.curPlatform = j + 1 := by omega
        have hjlt : j < acc.length := by omega
        have hp' : acc[j]? = some p := by rw [← hj']; exact hp
        simp [hjlt, hj', hlj, hp']
      · have hlj : ¬ l.curPlatform = j + 1 := by omega
        simp [hj', hlj]

end Loader

/-! ## The routes handled by the search -/

section Trace

variable {T : Type} [LT T] [DecidableRel (fun a b : T => a < b)] [Add T] [Zero T]

omit [Zero T] in
/-- A property of the queued routes that extension along outbound edges keeps
holds for every route the loop handles. -/
theorem searchTrace_forall (Q : PriorityQueue (Route T) routeComp) (platforms : PlatformArr T)
    (P : Route T → Prop)
    (hext : ∀ r, P r → ∀ e ∈ outEdges platforms (r.routePath.getLastD 0),
      P (Route.extend r e)) :
    ∀ (fuel : Nat) (q : Q.State), (∀ r ∈ Q.contents q, P r) →
      ∀ r ∈ searchTrace Q platforms fuel q, P r := by
  intro fuel
  induction fuel with
  | zero => intro q _ r hr; simp [searchTrace] at hr
  | succ fuel ih =>
    intro q hq r hr
    rw [searchTrace] at hr
    split at hr
    · simp at hr
    · rename_i cur q' hpop
      have hperm := Q.pop_some q cur q' hpop
      have hcur : P cur := hq cur (hperm.mem_iff.2 (List.mem_cons_self _ _))
      have hq' : ∀ x ∈ Q.contents q', P x :=
        fun x hx => hq x (hperm.mem_iff.2 (List.mem_cons_of_mem _ hx))
      by_cases hall : allLevelVisitedInRoute cur = true
      · simp only [hall, if_true, List.mem_singleton] at hr
        rw [hr]; exact hcur
      · have hall' : allLevelVisitedInRoute cur = false := by simpa using hall
        by_cases hmax : atMaxPathLength cur = true
        · simp only [hall', hmax, Bool.false_eq_true, if_false, if_true, List.mem_cons] at hr
          rcases hr with rfl | hr
          · exact hcur
          · exact ih q' hq' r hr
        · have hmax' : atMaxPathLength cur = false := by simpa using hmax
          simp only [hall', hmax', Bool.false_eq_true, if_false, List.mem_cons,
            List.mem_append, List.mem_map] at hr
          rcases hr with rfl | ⟨e, he, rfl⟩ | hr
          · exact hcur
          · exact hext cur hcur e he
          · refine ih _ ?_ r hr
            intro x hx
            rcases List.mem_append.1 ((contents_expand Q platforms cur q').mem_iff.1 hx)
              with hx | hx
            · simp only [newRoutes, List.mem_filter, List.mem_map] at hx
              obtain ⟨⟨e, he, rfl⟩, _⟩ := hx
              exact hext cur hcur e he
            · exact hq' x hx

end Trace

/-! ## Properties of the constructor, the loader, the tests and the handled routes -/

section MoreProperties

variable {T : Type}

/-- C11: the route built by `Route(r, e)` has the path of `r` followed by the
destination of `e` and the time of `r` plus the time of `e`; the argument `r`
is the same after the call as before it. -/
theorem Route_extend_path_time [Add T] (r : Route T) (e : RingLevel T) :
    (Route.extend r e).routePath = r.routePath ++ [e.destinationLevel] ∧
      (Route.extend r e).routeTime = r.routeTime + e.levelTime ∧
      Route.extendCall r e = (r, Route.extend r e) :=
  ⟨by simp [Route.extend, copyPath_eq], rfl, extendCall_eq r e⟩

set_option maxRecDepth 100000 in
/-- C12, at a failing input: after the lines `1 -> 2`, ..., `12 -> 13`, all
well-formed with identifiers in `1..13`, the cells 0..11 hold the identifiers
1..12 but the cell of platform 13, the source of no line, holds identifier 0. -/
theorem parseTimesFile_unsourced_platformLevel :
    (parseTimesFile chainLines).map (fun platforms => platforms.map (fun p => p.platformLevel)) =
      some [1, 2, 3, 4, 5, 6, 7, 8, 9, 10, 11, 12, 0] := by
  decide

/-- C13: after `parseTimesFile` has processed lines whose identifiers lie in
`1..13`, the edge collection of every node `i` of `1..13` is the list of the
(destination, time) pairs of the lines with source `i`, in file order, repeated
edges kept. Lines that the pattern does not match are skipped. -/
theorem parseTimesFile_edges (lines : List (Option (EdgeLine T)))
    (hrange : ∀ l, some l ∈ lines →
      (1 ≤ l.curPlatform ∧ l.curPlatform ≤ NUM_LEVELS) ∧
        (1 ≤ l.nextPlatform ∧ l.nextPlatform ≤ NUM_LEVELS)) :
    ∃ platforms, parseTimesFile lines = some platforms ∧
      platforms.length = NUM_LEVELS ∧
      ∀ i, 1 ≤ i → i ≤ NUM_LEVELS →
        (platforms[i - 1]?).map (fun p => p.connectedLevels) = some (edgesFrom lines i) := by
  obtain ⟨res, hres, hlen, hcells⟩ := parseLines_edges lines
    (List.replicate NUM_LEVELS { platformLevel := 0, connectedLevels := [] })
    (List.length_replicate _ _) hrange
  refine ⟨res, hres, hlen, fun i hi1 hi2 => ?_⟩
  have hj : i - 1 < NUM_LEVELS := by omega
  have hi : i - 1 + 1 = i := by omega
  rw [hcells (i - 1) hj, hi, List.getElem?_replicate]
  simp [hj]

set_option maxRecDepth 100000 in
theorem parseTimesFile_edges_witness :
    ∃ platforms, parseTimesFile chainLines = some platforms ∧
      platforms.length = NUM_LEVELS ∧
      ∀ i, 1 ≤ i → i ≤ NUM_LEVELS →
        (platforms[i - 1]?).map (fun p => p.connectedLevels) = some (edgesFrom chainLines i) :=
  parseTimesFile_edges chainLines (by
    intro l hl
    simp only [chainLines, List.mem_map, List.mem_range, Option.some.injEq] at hl
    obtain ⟨i, hi, rfl⟩ := hl
    have h13 : NUM_LEVELS = 13 := rfl
    simp only
    omega)

/-- C15: for a path with identifiers in `1..13`, `allLevelVisitedInRoute`
returns true exactly when each identifier of `1..13` occurs in the path; it
returns false for every path of fewer than 13 identifiers. -/
theorem allLevelVisitedInRoute_iff_cover (r : Route T)
    (hrange : ∀ y ∈ r.routePath, 1 ≤ y ∧ y ≤ NUM_LEVELS) :
    (allLevelVisitedInRoute r = true ↔ ∀ i, 1 ≤ i → i ≤ NUM_LEVELS → i ∈ r.routePath) ∧
      (r.routePath.length < NUM_LEVELS → allLevelVisitedInRoute r = false) := by
  have hiff := allLevelVisitedInRoute_iff r (fun y hy => (hrange y hy).1)
  refine ⟨hiff, fun hshort => ?_⟩
  rw [Bool.eq_false_iff]
  intro htrue
  have := length_ge_of_cover r.routePath (hiff.1 htrue)
  omega

set_option maxRecDepth 100000 in
theorem allLevelVisitedInRoute_iff_cover_witness :
    (allLevelVisitedInRoute chainRoute = true ↔
        ∀ i, 1 ≤ i → i ≤ NUM_LEVELS → i ∈ chainRoute.routePath) ∧
      (chainRoute.routePath.length < NUM_LEVELS → allLevelVisitedInRoute chainRoute = false) :=
  allLevelVisitedInRoute_iff_cover chainRoute (by decide)

/-- C16: the revisit filter is monotone under extension. For a path `p` of
fewer than 255 identifiers in `1..13` and an identifier `x` in `1..13`, if
`tooManySameLevels` rejects `p` it rejects `p` followed by `x`; and if it
accepts `p` followed by `x`, it accepts every prefix of that path. -/
theorem tooManySameLevels_monotone (p : List Nat) (x : Nat) (t t' : T)
    (hp : ∀ y ∈ p, 1 ≤ y ∧ y ≤ NUM_LEVELS) (hx : 1 ≤ x ∧ x ≤ NUM_LEVELS)
    (hlen : p.length < 255) :
    (tooManySameLevels ({ routePath := p, routeTime := t } : Route T) = true →
        tooManySameLevels ({ routePath := p ++ [x], routeTime := t' } : Route T) = true) ∧
      (tooManySameLevels ({ routePath := p ++ [x], routeTime := t' } : Route T) = false →
        ∀ k, tooManySameLevels
          ({ routePath := (p ++ [x]).take k, routeTime := t } : Route T) = false) := by
  refine ⟨tooManySameLevels_snoc p x t t' (fun y hy => (hp y hy).1) hx.1 hlen, ?_⟩
  intro hacc k
  rw [Bool.eq_false_iff]
  intro hrej
  have hpos : ∀ y ∈ (p ++ [x]).take k ++ (p ++ [x]).drop k, 1 ≤ y := by
    rw [List.take_append_drop]
    intro y hy
    rcases List.mem_append.1 hy with hy | hy
    · exact (hp y hy).1
    · rw [List.mem_singleton.1 hy]; exact hx.1
  have hlen' : ((p ++ [x]).take k ++ (p ++ [x]).drop k).length ≤ 255 := by
    rw [List.take_append_drop, List.length_append, List.length_singleton]
    omega
  have := tooManySameLevels_append ((p ++ [x]).take k) ((p ++ [x]).drop k) t t' hpos hlen' hrej
  rw [List.take_append_drop, hacc] at this
  exact Bool.false_ne_true this

set_option maxRecDepth 100000 in
theorem tooManySameLevels_monotone_witness :
    tooManySameLevels ({ routePath := [1, 1, 1], routeTime := 0 } : Route Nat) = true ∧
      tooManySameLevels ({ routePath := [1, 1, 1] ++ [2], routeTime := 7 } : Route Nat) = true :=
  ⟨by decide,
    (tooManySameLevels_monotone [1, 1, 1] 2 (0 : Nat) 7 (by decide) (by decide) (by decide)).1
      (by decide)⟩

/-- C17: the revisit filter alone bounds the path length. A path of fewer than
256 identifiers in `1..13` that `tooManySameLevels` accepts has at most 15
identifiers; so a path that properly extends a route at the length cap is
rejected. -/
theorem tooManySameLevels_bounds_length (r : Route T)
    (hrange : ∀ y ∈ r.routePath, 1 ≤ y ∧ y ≤ NUM_LEVELS)
    (hlen : r.routePath.length < 256) :
    (tooManySameLevels r = false → r.routePath.length ≤ MAX_PLATFORMS_IN_ROUTE) ∧
      (∀ cur : Route T, atMaxPathLength cur = true → cur.routePath <+: r.routePath →
        cur.routePath ≠ r.routePath → tooManySameLevels r = true) := by
  refine ⟨accepted_length_le r hrange hlen, ?_⟩
  intro cur hmax hpre hne
  by_contra hrej
  have hacc : tooManySameLevels r = false := by simpa using hrej
  have h15 := accepted_length_le r hrange hlen hacc
  have hcur : MAX_PLATFORMS_IN_ROUTE ≤ cur.routePath.length := by
    simpa [atMaxPathLength] using hmax
  have hle := hpre.length_le
  exact hne (hpre.eq_of_length (by omega))

set_option maxRecDepth 100000 in
theorem tooManySameLevels_bounds_length_witness :
    (tooManySameLevels chainRoute = false →
        chainRoute.routePath.length ≤ MAX_PLATFORMS_IN_ROUTE) ∧
      (∀ cur : Route Nat, atMaxPathLength cur = true →
        cur.routePath <+: chainRoute.routePath →
        cur.routePath ≠ chainRoute.routePath → tooManySameLevels chainRoute = true) :=
  tooManySameLevels_bounds_length chainRoute (by decide) (by decide)

/-- C18: a non-empty route returned by `findFastestRoute` on `[s]` is accepted
by the revisit filter, no identifier occurs on it three or more times, at most
two identifiers occur twice, and its path has between 13 and 15 identifiers. -/
theorem findFastestRoute_accepted
    [LT T] [DecidableRel (fun a b : T => a < b)] [Add T] [Zero T]
    (Q : PriorityQueue (Route T) routeComp) (platforms : PlatformArr T) (s : Nat)
    (R : Route T) (hG : GraphOK platforms) (hs : 1 ≤ s ∧ s ≤ NUM_LEVELS)
    (hR : findFastestRoute Q (Route.ofStart s) platforms = some R)
    (hne : R.routePath ≠ []) :
    tooManySameLevels R = false ∧
      (∀ x, R.routePath.count x < 3) ∧
      (R.routePath.toFinset.filter (fun x => R.routePath.count x = 2)).card ≤ 2 ∧
      NUM_LEVELS ≤ R.routePath.length ∧
      R.routePath.length ≤ MAX_PLATFORMS_IN_ROUTE := by
  rcases search_result_structure Q platforms s hG hs _ R hR with rfl | ⟨es, hc, rfl⟩
  · exact absurd rfl hne
  · obtain ⟨hw, hcover, hlen, hacc⟩ := hc
    have hrange := walkPath_range platforms hG s hs es hw
    have hlt : (walkRoute s es).routePath.length < 256 :=
      lt_of_le_of_lt hlen (by decide)
    obtain ⟨h2, hcard⟩ := accepted_counts (walkRoute s es) hrange hlt hacc
    refine ⟨hacc, fun x => Nat.lt_succ_of_le (h2 x), ?_, length_ge_of_cover _ hcover, hlen⟩
    rw [← doubles_card_eq (walkRoute s es).routePath hrange]
    exact hcard

set_option maxRecDepth 100000 in
theorem findFastestRoute_accepted_witness :
    GraphOK chainGraph ∧
      findFastestRoute (listQueue Nat) (Route.ofStart 1) chainGraph = some chainRoute ∧
      tooManySameLevels chainRoute = false ∧
      (∀ x, chainRoute.routePath.count x < 3) ∧
      (chainRoute.routePath.toFinset.filter
        (fun x => chainRoute.routePath.count x = 2)).card ≤ 2 ∧
      NUM_LEVELS ≤ chainRoute.routePath.length ∧
      chainRoute.routePath.length ≤ MAX_PLATFORMS_IN_ROUTE :=
  ⟨by decide, by decide,
    findFastestRoute_accepted (listQueue Nat) chainGraph 1 chainRoute
      (by decide) (by decide) (by decide) (by decide)⟩

/-- C19: index safety of the search. Every route that `findFastestRoute` on
`[s]` handles, within any step budget (the start route, every popped route,
every candidate built from a popped route, pushed or not), has a non-empty
path with all identifiers in `1..13`; so the indices `id - 1` into the two
13-cell arrays `platformCheck`, and the index `last - 1` into `platforms`, lie
in `0..12`. -/
theorem findFastestRoute_index_safe
    [LT T] [DecidableRel (fun a b : T => a < b)] [Add T] [Zero T]
    (Q : PriorityQueue (Route T) routeComp) (platforms : PlatformArr T) (s : Nat)
    (fuel : Nat) (hG : GraphOK platforms) (hs : 1 ≤ s ∧ s ≤ NUM_LEVELS) :
    ∀ r ∈ findFastestRouteTrace Q fuel (Route.ofStart s) platforms,
      r.routePath ≠ [] ∧
        (∀ id ∈ r.routePath,
          (1 ≤ id ∧ id ≤ NUM_LEVELS) ∧ 0 ≤ cellIndex id ∧ cellIndex id < 13) ∧
        0 ≤ cellIndex (r.routePath.getLastD 0) ∧
        cellIndex (r.routePath.getLastD 0) < platforms.length := by
  have hgood : ∀ r ∈ findFastestRouteTrace Q fuel (Route.ofStart s) platforms,
      ∃ es, IsWalk platforms s es ∧ r = walkRoute s es := by
    intro r hr
    have hstart : ∃ es, IsWalk platforms s es ∧ (Route.ofStart s : Route T) = walkRoute s es :=
      ⟨[], trivial, rfl⟩
    rcases List.mem_cons.1 hr with rfl | hr
    · exact hstart
    · refine searchTrace_forall Q platforms
        (fun r => ∃ es, IsWalk platforms s es ∧ r = walkRoute s es) ?_ _ _ ?_ r hr
      · rintro r ⟨es, hw, rfl⟩ e he
        exact ⟨es ++ [e], (isWalk_append platforms s es e).2 ⟨hw, he⟩,
          extend_walkRoute s es e⟩
      · intro x hx
        have hx' := (Q.contents_push Q.empty (Route.ofStart s)).mem_iff.1 hx
        rw [Q.contents_empty, List.mem_singleton] at hx'
        rw [hx']; exact hstart
  intro r hr
  obtain ⟨es, hw, rfl⟩ := hgood r hr
  have hrange := walkPath_range platforms hG s hs es hw
  have h13 : NUM_LEVELS = 13 := rfl
  have hidx : ∀ id, 1 ≤ id ∧ id ≤ NUM_LEVELS → 0 ≤ cellIndex id ∧ cellIndex id < 13 := by
    intro id hid
    unfold cellIndex
    omega
  have hlast : (walkRoute s es).routePath.getLastD 0 ∈ (walkRoute s es).routePath := by
    simp only [walkRoute, walkPath, List.getLastD_cons]
    rcases List.eq_nil_or_concat (es.map (fun e => e.destinationLevel)) with h | ⟨l, b, h⟩
    · rw [h]; simp
    · rw [h, List.concat_eq_append, List.getLastD_concat]; simp
  refine ⟨by simp [walkRoute, walkPath], fun id hid => ⟨hrange id hid, hidx id (hrange id hid)⟩,
    (hidx _ (hrange _ hlast)).1, ?_⟩
  have := (hidx _ (hrange _ hlast)).2
  rw [hG.1, h13]
  exact_mod_cast this

set_option maxRecDepth 100000 in
theorem findFastestRoute_index_safe_witness :
    GraphOK chainGraph ∧
      ∀ r ∈ findFastestRouteTrace (listQueue Nat) (searchFuel chainGraph) (Route.ofStart 1)
          chainGraph,
        r.routePath ≠ [] ∧
          (∀ id ∈ r.routePath,
            (1 ≤ id ∧ id ≤ NUM_LEVELS) ∧ 0 ≤ cellIndex id ∧ cellIndex id < 13) ∧
          0 ≤ cellIndex (r.routePath.getLastD 0) ∧
          cellIndex (r.routePath.getLastD 0) < chainGraph.length :=
  ⟨by decide,
    findFastestRoute_index_safe (listQueue Nat) chainGraph 1 (searchFuel chainGraph)
      (by decide) (by decide)⟩

end MoreProperties

end RouteFinder
